import Mathlib

/-!
Shallow embedding of the detection engine of GiGurra/subscription-detector
(internal/detector.go, internal/config.go, suggest.go), together with proofs
of the specified properties.

Modelling conventions:
* Go `time.Time` values at day precision are modelled as calendar-day triples
  (year, month, day); Go's `time.Date` constructor normalisation (month
  overflow into years, day overflow/borrow across month boundaries using the
  real month lengths, leap years included) is implemented by `mkDate`.
  `Before`/`After`/`Equal` on such day-precision values coincide with the
  lexicographic order, respectively equality, of the triples.
* Go `float64` amounts are modelled as exact rationals `ℚ`.  The IEEE 754
  behaviour of `x / 0.0` inside `AmountsWithinTolerance` (`|c-p|/0 = +Inf`
  compares greater than every tolerance, `0/0 = NaN` compares greater than
  nothing) is modelled by the explicit zero test in `tolViolation`.
* Go maps are modelled by first-insertion-ordered key lists (`uniqueList`);
  Go randomises map iteration order, so where a property depends on that
  order the enumeration order is an explicit parameter (`SuggestGroupsWith`).
* `sort.Slice` (a deterministic, not necessarily stable comparison sort) is
  modelled by insertion sort with the non-strict version of the Go `less`
  function; the two agree on every list on which the comparator admits no
  ties, and the properties proved below do not depend on tie order.
* Compiled regular expressions are modelled as their matching functions
  `String → Bool` (`(?i)` case folding is part of the compiled matcher).
-/

namespace SubDetect

/-- Calendar date (a Go `time.Time` at day precision, UTC midnight). -/
structure Date where
  year : Int
  month : Int
  day : Int
deriving DecidableEq, Repr, Inhabited

/-- Leap-year rule used by Go's `time` package (proleptic Gregorian). -/
def isLeap (y : Int) : Prop := y % 4 = 0 ∧ (y % 100 ≠ 0 ∨ y % 400 = 0)

instance (y : Int) : Decidable (isLeap y) := by unfold isLeap; infer_instance

/-- Number of days of month `m` (1..12) of year `y` (Go `daysIn`). -/
def daysInMonth (y m : Int) : Int :=
  if m = 2 then (if isLeap y then 29 else 28)
  else if m = 4 ∨ m = 6 ∨ m = 9 ∨ m = 11 then 30 else 31

theorem daysInMonth_ge28 (y m : Int) : 28 ≤ daysInMonth y m := by
  unfold daysInMonth
  split_ifs <;> omega

theorem daysInMonth_le31 (y m : Int) : daysInMonth y m ≤ 31 := by
  unfold daysInMonth
  split_ifs <;> omega

/-- Go's `norm(year, month-1, 12)` from `time.Date`: fold an arbitrary
integer month into a year/month pair with month in 1..12. -/
def normMonth (y m : Int) : Int × Int :=
  let lo := m - 1
  let p := if lo < 0 then (y - ((-lo - 1).ediv 12 + 1), lo + ((-lo - 1).ediv 12 + 1) * 12)
           else (y, lo)
  if p.2 ≥ 12 then (p.1 + p.2.ediv 12, (p.2 - p.2.ediv 12 * 12) + 1) else (p.1, p.2 + 1)

/-- Push an overflowing day count forward month by month, as Go's
absolute-day conversion does.  Structural recursion on a fuel that
over-approximates the number of carries (each carry removes at least 28
days, so `d.toNat` steps always suffice; the fuel-exhausted branch is
unreachable for the `d ≥ 1` calls made below). -/
def normDayCarry (fuel : Nat) (y m d : Int) : Date :=
  if d ≤ daysInMonth y m then ⟨y, m, d⟩
  else
    match fuel with
    | 0 => ⟨y, m, d⟩
    | fuel + 1 =>
      if m = 12 then normDayCarry fuel (y + 1) 1 (d - daysInMonth y m)
      else normDayCarry fuel y (m + 1) (d - daysInMonth y m)

/-- Borrow days from earlier months while the day count is below 1 (fuel
over-approximates the number of borrows, each adding at least 28 days). -/
def normDayBorrow (fuel : Nat) (y m d : Int) : Date :=
  if 1 ≤ d then normDayCarry d.toNat y m d
  else
    match fuel with
    | 0 => ⟨y, m, d⟩
    | fuel + 1 =>
      if m = 1 then normDayBorrow fuel (y - 1) 12 (d + daysInMonth (y - 1) 12)
      else normDayBorrow fuel y (m - 1) (d + daysInMonth y (m - 1))

/-- Go `time.Date(y, m, d, 0, 0, 0, 0, time.UTC)` at day precision:
normalises any integer month and day to a real calendar date. -/
def mkDate (y m d : Int) : Date :=
  normDayBorrow ((1 - d).toNat + 1) (normMonth y m).1 (normMonth y m).2 d

/-- Go `t.AddDate(years, months, days)`. -/
def addDateGo (t : Date) (years months days : Int) : Date :=
  mkDate (t.year + years) (t.month + months) (t.day + days)

/-- Strict order of day-precision instants (Go `a.Before(b)`). -/
def dateLt (a b : Date) : Prop :=
  a.year < b.year ∨ (a.year = b.year ∧
    (a.month < b.month ∨ (a.month = b.month ∧ a.day < b.day)))

instance (a b : Date) : Decidable (dateLt a b) := by unfold dateLt; infer_instance

/-- Non-strict date order (negation of `b.Before(a)` for the lex order). -/
def dateLE (a b : Date) : Prop := ¬ dateLt b a

instance (a b : Date) : Decidable (dateLE a b) := by unfold dateLE; infer_instance

/-- A triple that denotes a real calendar date (what every Go `time.Time`
of the program carries at day precision). -/
def ValidDate (t : Date) : Prop :=
  1 ≤ t.month ∧ t.month ≤ 12 ∧ 1 ≤ t.day ∧ t.day ≤ daysInMonth t.year t.month

instance (t : Date) : Decidable (ValidDate t) := by unfold ValidDate; infer_instance

/-- Bank transaction: date, payee text, signed amount (negative = expense). -/
structure Transaction where
  Date : Date
  Text : String
  Amount : ℚ
deriving DecidableEq, Repr

instance : Inhabited Transaction := ⟨⟨⟨1, 1, 1⟩, "", 0⟩⟩

/-- Subscription status (two-valued tag). -/
inductive SubscriptionStatus where
  | active
  | stopped
deriving DecidableEq, Repr

/-- Date range of the observed data. -/
structure DateRange where
  Start : Date
  End : Date
deriving DecidableEq, Repr

/-- Detected subscription record. -/
structure Subscription where
  Name : String
  AvgAmount : ℚ
  LatestAmount : ℚ
  MinAmount : ℚ
  MaxAmount : ℚ
  Transactions : List Transaction
  StartDate : Date
  LastDate : Date
  TypicalDay : Int
  Status : SubscriptionStatus
deriving DecidableEq, Repr

/-- Go `math.Abs` on exact rationals (used in place of `|q|` so that every
definition reduces in the kernel; `absQ_eq_abs` identifies the two). -/
def absQ (q : ℚ) : ℚ := if q < 0 then -q else q

theorem absQ_eq_abs (q : ℚ) : absQ q = |q| := by
  unfold absQ
  split_ifs with h
  · exact (abs_of_neg h).symm
  · exact (abs_of_nonneg (not_lt.mp h)).symm

/-- Rational division through `Rat.divInt`, which the kernel evaluates
(Mathlib's field `/` on `ℚ` does not reduce); `divQ_eq_div` identifies it
with `/`. -/
def divQ (a b : ℚ) : ℚ := Rat.divInt (a.num * b.den) (a.den * b.num)

theorem divQ_eq_div (a b : ℚ) : divQ a b = a / b := by
  unfold divQ
  rcases eq_or_ne b 0 with rfl | hb
  · simp
  · have hbn : (b.num : ℚ) ≠ 0 := Int.cast_ne_zero.mpr (Rat.num_ne_zero.mpr hb)
    have had : ((a.den : ℚ)) ≠ 0 := Nat.cast_ne_zero.mpr a.den_nz
    have hbd : ((b.den : ℚ)) ≠ 0 := Nat.cast_ne_zero.mpr b.den_nz
    have ha' : (a.num : ℚ) = a * a.den := (div_eq_iff had).mp (Rat.num_div_den a)
    have hb' : (b.num : ℚ) = b * b.den := (div_eq_iff hbd).mp (Rat.num_div_den b)
    rw [Rat.divInt_eq_div]
    push_cast
    rw [div_eq_div_iff (mul_ne_zero had hbn) hb, ha', hb']
    ring

/-- Rational subtraction through `Rat.divInt` (kernel-reducible, unlike the
`@[irreducible]` `Rat.sub` behind `-`); `subQ_eq_sub` identifies the two. -/
def subQ (a b : ℚ) : ℚ := Rat.divInt (a.num * b.den - b.num * a.den) (a.den * b.den)

/-- Rational addition through `Rat.divInt`, kernel-reducible. -/
def addQ (a b : ℚ) : ℚ := Rat.divInt (a.num * b.den + b.num * a.den) (a.den * b.den)

theorem subQ_eq_sub (a b : ℚ) : subQ a b = a - b := by
  unfold subQ
  have had : ((a.den : ℚ)) ≠ 0 := Nat.cast_ne_zero.mpr a.den_nz
  have hbd : ((b.den : ℚ)) ≠ 0 := Nat.cast_ne_zero.mpr b.den_nz
  have ha' : (a.num : ℚ) = a * a.den := (div_eq_iff had).mp (Rat.num_div_den a)
  have hb' : (b.num : ℚ) = b * b.den := (div_eq_iff hbd).mp (Rat.num_div_den b)
  rw [Rat.divInt_eq_div]
  push_cast
  rw [div_eq_iff (mul_ne_zero had hbd), ha', hb']
  ring

theorem addQ_eq_add (a b : ℚ) : addQ a b = a + b := by
  unfold addQ
  have had : ((a.den : ℚ)) ≠ 0 := Nat.cast_ne_zero.mpr a.den_nz
  have hbd : ((b.den : ℚ)) ≠ 0 := Nat.cast_ne_zero.mpr b.den_nz
  have ha' : (a.num : ℚ) = a * a.den := (div_eq_iff had).mp (Rat.num_div_den a)
  have hb' : (b.num : ℚ) = b * b.den := (div_eq_iff hbd).mp (Rat.num_div_den b)
  rw [Rat.divInt_eq_div]
  push_cast
  rw [div_eq_iff (mul_ne_zero had hbd), ha', hb']
  ring

/-- `strings.ToLower`, modelled character-wise (faithful on ASCII payee
texts; written via `String.mk` so the kernel can evaluate it). -/
def toLowerStr (s : String) : String := String.mk (s.data.map Char.toLower)

/-- `FilterExpenses`: keep only transactions with negative amounts. -/
def FilterExpenses (txs : List Transaction) : List Transaction :=
  txs.filter (fun tx => decide (tx.Amount < 0))

/-- Year-month bucket key (`tx.Date.Format("2006-01")`). -/
def monthKey (d : Date) : Int × Int := (d.year, d.month)

/-- Multiplicity of a year-month key in a key list (the value the
`byMonth` Go map accumulates for that key). -/
def countKey (k : Int × Int) (l : List (Int × Int)) : Nat :=
  l.countP (fun k2 => decide (k2 = k))

/-- `IsMonthlyPattern`: group by calendar year-month; every bucket that
exists (i.e. received at least one transaction) must have count exactly 1. -/
def IsMonthlyPattern (txs : List Transaction) : Bool :=
  decide (∀ k ∈ txs.map (fun tx : Transaction => monthKey tx.Date),
    countKey k (txs.map (fun tx : Transaction => monthKey tx.Date)) = 1)

/-- One step of the consecutive-pair tolerance test, on the absolute
amounts `p` (previous) and `c` (current): Go computes
`math.Abs(c-p) / p > tolerance`.  When `p = 0` the Go division yields
`+Inf` (if `c ≠ p`) or `NaN` (if `c = p = 0`); `+Inf > tol` is true for
every finite `tol` and `NaN > tol` is false, which the zero test below
reproduces exactly. -/
def tolViolation (p c tolerance : ℚ) : Bool :=
  if p = 0 then decide (c ≠ 0) else decide (divQ (absQ (subQ c p)) p > tolerance)

/-- The `for i := 1; ...` loop of `AmountsWithinTolerance` over the list of
absolute amounts. -/
def amountsChainOK : List ℚ → ℚ → Bool
  | [], _ => true
  | [_], _ => true
  | p :: c :: rest, tolerance =>
    !(tolViolation p c tolerance) && amountsChainOK (c :: rest) tolerance

/-- `AmountsWithinTolerance`: consecutive pairs of absolute amounts must
stay within the tolerance fraction; fewer than 2 elements passes iff the
list is a singleton. -/
def AmountsWithinTolerance (txs : List Transaction) (tolerance : ℚ) : Bool :=
  if txs.length < 2 then decide (txs.length = 1)
  else amountsChainOK (txs.map (fun tx => absQ tx.Amount)) tolerance

/-- First-occurrence deduplication, as Go insertion into a map records the
first hit of each key (and `uniqueStrings` in suggest.go keeps firsts). -/
def uniqueList {α : Type} [DecidableEq α] : List α → List α
  | [] => []
  | x :: xs => x :: (uniqueList xs).filter (fun y => decide (y ≠ x))

/-- Order used to model `sort.Slice(txs, func(i,j) { ... Before ... })`. -/
def txDateLE (a b : Transaction) : Prop := dateLE a.Date b.Date

instance (a b : Transaction) : Decidable (txDateLE a b) := by
  unfold txDateLE; infer_instance

/-- Date-ascending sort of a transaction slice. -/
def sortByDate (txs : List Transaction) : List Transaction :=
  List.insertionSort txDateLE txs

/-- `CalculateAverageAmount`: signed mean, 0 for an empty list. -/
def CalculateAverageAmount (txs : List Transaction) : ℚ :=
  if txs.length = 0 then 0
  else divQ (txs.foldl (fun (s : ℚ) (tx : Transaction) => addQ s tx.Amount) 0)
    (mkRat (txs.length : Int) 1)

/-- `CalculateAmountRange`: min and max of the absolute amounts. -/
def CalculateAmountRange (txs : List Transaction) : ℚ × ℚ :=
  match txs with
  | [] => (0, 0)
  | t :: rest =>
    rest.foldl (fun mm tx =>
      (if absQ tx.Amount < mm.1 then absQ tx.Amount else mm.1,
       if absQ tx.Amount > mm.2 then absQ tx.Amount else mm.2))
      (absQ t.Amount, absQ t.Amount)

/-- `CalculateTypicalDay`: integer mean of the day of month (Go integer
division truncates; day sums are nonnegative, where `ediv` agrees). -/
def CalculateTypicalDay (txs : List Transaction) : Int :=
  if txs.length = 0 then 0
  else (txs.foldl (fun (s : Int) (tx : Transaction) => s + tx.Date.day) 0).ediv
    (txs.length : Int)

/-- `DetermineStatus` (detector.go 197-232).  Month starts are built with
`time.Date(y, m, 1, ...)`; `time.Date(y, m+1, 0, ...)` is the Go idiom for
the last day of month `m`. -/
def DetermineStatus (lastPayment : Date) (typicalDay : Int) (dataEndDate : Date) :
    SubscriptionStatus :=
  let lastPaymentStart := mkDate lastPayment.year lastPayment.month 1
  let currentMonthStart := mkDate dataEndDate.year dataEndDate.month 1
  if lastPaymentStart = currentMonthStart then .active
  else
    let monthsDiff := (currentMonthStart.year - lastPaymentStart.year) * 12 +
      (currentMonthStart.month - lastPaymentStart.month)
    if monthsDiff > 1 then .stopped
    else
      let lastDayOfMonth := (mkDate dataEndDate.year (dataEndDate.month + 1) 0).day
      let expectedDay := if typicalDay > lastDayOfMonth then lastDayOfMonth else typicalDay
      let expectedDate := mkDate dataEndDate.year dataEndDate.month expectedDay
      let gracePeriodEnd := addDateGo expectedDate 0 0 5
      if dateLt gracePeriodEnd dataEndDate then .stopped else .active

/-- Month sequence starting at year `y`, month `m`, of the given length:
the successive values of the `current` variable of `AnalyzeDataCoverage`
(each step is `AddDate(0, 1, 0)` on the first of a month). -/
def monthSeq (y m : Int) : Nat → List (Int × Int)
  | 0 => []
  | n + 1 => (y, m) :: (if m = 12 then monthSeq (y + 1) 1 n else monthSeq y (m + 1) n)

/-- `AnalyzeDataCoverage` (detector.go 234-278).  The Go loop runs
`current` from the first of the min-date month while `!current.After(endMonth)`,
which for first-of-month dates is exactly the month sequence of length
`endIdx - startIdx + 1` in month-index order; a month strictly before the
final month is always complete, the final month only when the max date is
its last day (`current.AddDate(0, 1, -1).Day()`). -/
def AnalyzeDataCoverage (transactions : List Transaction) :
    List (Int × Int) × DateRange :=
  match transactions with
  | [] => ([], ⟨⟨1, 1, 1⟩, ⟨1, 1, 1⟩⟩)
  | t :: _ =>
    let minD := transactions.foldl
      (fun acc tx => if dateLt tx.Date acc then tx.Date else acc) t.Date
    let maxD := transactions.foldl
      (fun acc tx => if dateLt acc tx.Date then tx.Date else acc) t.Date
    let count := (maxD.year * 12 + maxD.month + 1 - (minD.year * 12 + minD.month)).toNat
    let completeMonths := (monthSeq minD.year minD.month count).filter
      (fun ym => if ym = (maxD.year, maxD.month)
        then decide (maxD.day = (mkDate ym.1 (ym.2 + 1) 0).day)
        else true)
    (completeMonths, ⟨minD, maxD⟩)

/-- `FilterToCompleteMonths`: keep transactions whose year-month key is in
the complete-months set. -/
def FilterToCompleteMonths (transactions : List Transaction)
    (completeMonths : List (Int × Int)) : List Transaction :=
  transactions.filter (fun tx => decide (monthKey tx.Date ∈ completeMonths))

/-- `FilterOutMatched`: drop transactions whose lowercased text is in the
matched set (no-op when the set is empty, as in the Go early return). -/
def FilterOutMatched (transactions : List Transaction)
    (matchedTexts : List String) : List Transaction :=
  if matchedTexts.isEmpty then transactions
  else transactions.filter (fun tx => decide (toLowerStr tx.Text ∉ matchedTexts))

/-- Known-subscription rule (config.go).  The compiled case-insensitive
regex is modelled by its matching function; `regex = none` models an
uncompiled rule; absent bounds are `none` (Go zero values). -/
structure KnownSubscription where
  Pattern : String
  regex : Option (String → Bool)
  MinAmount : Option ℚ
  MaxAmount : Option ℚ
  beforeDate : Option Date
  afterDate : Option Date

/-- `KnownSubscription.Matches` (config.go 378-409). -/
def Matches (k : KnownSubscription) (tx : Transaction) : Bool :=
  match k.regex with
  | none => false
  | some re =>
    if !re tx.Text then false
    else if (match k.MinAmount with
             | some mn => decide (absQ tx.Amount < mn)
             | none => false) then false
    else if (match k.MaxAmount with
             | some mx => decide (absQ tx.Amount > mx)
             | none => false) then false
    else if (match k.beforeDate with
             | some b => decide (¬ dateLt tx.Date b)
             | none => false) then false
    else if (match k.afterDate with
             | some a => decide (dateLt tx.Date a)
             | none => false) then false
    else true

/-- `Config.MatchesKnown`: first rule in configured order that matches. -/
def MatchesKnown (known : List KnownSubscription) (tx : Transaction) :
    Option KnownSubscription :=
  known.find? (fun k => Matches k tx)

/-- Transactions consumed by known-pattern detection: the expenses for
which some configured rule matches (the loop body of
`DetectKnownSubscriptions` that marks and groups a transaction). -/
def consumedTxs (allTxs : List Transaction) (known : List KnownSubscription) :
    List Transaction :=
  allTxs.filter (fun tx => decide (tx.Amount < 0) && (MatchesKnown known tx).isSome)

/-- Pattern string of the rule a transaction matched, if any. -/
def patternOf (known : List KnownSubscription) (tx : Transaction) : Option String :=
  (MatchesKnown known tx).map (fun k => k.Pattern)

/-- The `byPattern` groups, keyed in first-consumption order (Go iterates
the map in random order; every per-group fact proved below is
order-independent). -/
def knownGroups (allTxs : List Transaction) (known : List KnownSubscription) :
    List (String × List Transaction) :=
  (uniqueList ((consumedTxs allTxs known).filterMap (patternOf known))).map
    (fun p => (p, (consumedTxs allTxs known).filter
      (fun tx => decide (patternOf known tx = some p))))

/-- Comparator of the final subscription sort: active first, then by
descending absolute average (the non-strict version of the Go `less`). -/
def subLE (a b : Subscription) : Prop :=
  ¬ (if b.Status = a.Status then absQ a.AvgAmount < absQ b.AvgAmount
     else b.Status = SubscriptionStatus.active)

instance (a b : Subscription) : Decidable (subLE a b) := by
  unfold subLE; infer_instance

/-- Final sort of the produced subscription list. -/
def sortSubs (subs : List Subscription) : List Subscription :=
  List.insertionSort subLE subs

/-- Subscription built from one known-pattern group (detector.go 350-387). -/
def mkKnownSub (dateRange : DateRange) (txs : List Transaction) : Subscription :=
  let txsS := sortByDate txs
  let lastDate := ((txsS.getLast?).map (fun tx => tx.Date)).getD ⟨1, 1, 1⟩
  { Name := ((txsS.getLast?).map (fun tx => tx.Text)).getD ""
    AvgAmount := CalculateAverageAmount txsS
    LatestAmount := ((txsS.getLast?).map (fun tx => tx.Amount)).getD 0
    MinAmount := (CalculateAmountRange txsS).1
    MaxAmount := (CalculateAmountRange txsS).2
    Transactions := txsS
    StartDate := ((txsS.head?).map (fun tx => tx.Date)).getD ⟨1, 1, 1⟩
    LastDate := lastDate
    TypicalDay := CalculateTypicalDay txsS
    Status := DetermineStatus lastDate (CalculateTypicalDay txsS) dateRange.End }

/-- `DetectKnownSubscriptions` (detector.go 315-398): the subscriptions
derived from the known-pattern groups, plus the set of matched lowercased
texts (modelled as the list of lowercased texts of consumed transactions). -/
def DetectKnownSubscriptions (allTxs : List Transaction) (dateRange : DateRange)
    (known : List KnownSubscription) : List Subscription × List String :=
  if known.isEmpty then ([], [])
  else
    (sortSubs (((knownGroups allTxs known).filter
        (fun g => !g.2.isEmpty)).map (fun g => mkKnownSub dateRange g.2)),
     (consumedTxs allTxs known).map (fun tx => toLowerStr tx.Text))

/-- The final `displayNames[key]` value: the text of the most recently
seen transaction with that case-insensitive key — the second loop (over
`allTxs`) overwrites the first (over `filteredTxs`). -/
def displayName (filteredTxs allTxs : List Transaction) (key : String) : String :=
  match (allTxs.filter (fun tx => decide (toLowerStr tx.Text = key))).getLast? with
  | some tx => tx.Text
  | none =>
    match (filteredTxs.filter (fun tx => decide (toLowerStr tx.Text = key))).getLast? with
    | some tx => tx.Text
    | none => ""

/-- The per-key body of the `DetectSubscriptions` loop (detector.go 34-93).
Go indexes `allExpenses[0]` and `allExpenses[len-1]` without a guard — it
would panic if the key had no transaction in `allTxs`; the callers always
pass `filteredTxs ⊆ allTxs`, making `allExpenses` nonempty whenever the
monthly and tolerance gates pass, so the `getD` defaults are never read. -/
def detectForKey (filteredTxs allTxs : List Transaction) (dateRange : DateRange)
    (tolerance : ℚ) (key : String) : Option Subscription :=
  let txs := filteredTxs.filter (fun tx => decide (toLowerStr tx.Text = key))
  if txs.length < 2 then none
  else
    let expenses := FilterExpenses txs
    if expenses.length < 2 then none
    else
      let expensesS := sortByDate expenses
      let allExpenses := sortByDate
        (FilterExpenses (allTxs.filter (fun tx => decide (toLowerStr tx.Text = key))))
      if !IsMonthlyPattern allExpenses then none
      else if !AmountsWithinTolerance expensesS tolerance then none
      else
        let lastDate := ((allExpenses.getLast?).map (fun tx => tx.Date)).getD ⟨1, 1, 1⟩
        some
          { Name := displayName filteredTxs allTxs key
            AvgAmount := CalculateAverageAmount expensesS
            LatestAmount := ((allExpenses.getLast?).map (fun tx => tx.Amount)).getD 0
            MinAmount := (CalculateAmountRange expensesS).1
            MaxAmount := (CalculateAmountRange expensesS).2
            Transactions := allExpenses
            StartDate := ((allExpenses.head?).map (fun tx => tx.Date)).getD ⟨1, 1, 1⟩
            LastDate := lastDate
            TypicalDay := CalculateTypicalDay expensesS
            Status := DetermineStatus lastDate (CalculateTypicalDay expensesS)
              dateRange.End }

/-- `DetectSubscriptions` (detector.go 14-104).  The `byName` map keys are
traversed in first-insertion order (Go randomises map iteration; every fact
proved below is independent of that order). -/
def DetectSubscriptions (filteredTxs allTxs : List Transaction)
    (dateRange : DateRange) (tolerance : ℚ) : List Subscription :=
  sortSubs ((uniqueList (filteredTxs.map (fun tx => toLowerStr tx.Text))).filterMap
    (detectForKey filteredTxs allTxs dateRange tolerance))

/-- The detection pipeline of `run` (main): known-pattern detection, then
exclusion of matched texts, then restriction to complete months, then
pattern detection.  Returns (known subscriptions, pattern subscriptions). -/
def runDetection (transactions : List Transaction)
    (completeMonths : List (Int × Int)) (dateRange : DateRange) (tolerance : ℚ)
    (known : List KnownSubscription) : List Subscription × List Subscription :=
  let kp := DetectKnownSubscriptions transactions dateRange known
  let regularTxs := FilterOutMatched transactions kp.2
  let filtered := FilterToCompleteMonths regularTxs completeMonths
  (kp.1, DetectSubscriptions filtered regularTxs dateRange tolerance)

/-- Suggested grouping of near-duplicate payee names (suggest.go). -/
structure GroupSuggestion where
  Prefix : String
  Pattern : String
  Names : List String
  MonthCount : Nat
  Transactions : List Transaction
deriving DecidableEq, Repr

/-- `strings.Fields`: whitespace-separated words. -/
def fieldsOf (s : String) : List String :=
  (s.split (fun c => c.isWhitespace)).filter (fun w => decide (w ≠ ""))

/-- The word-based candidate keys one orphan name contributes to: its
first word when at least 3 characters long, and its first two words
joined when it has a second word. -/
def wordKeysOf (name : String) : List String :=
  match fieldsOf name with
  | [] => []
  | w :: rest =>
    (if 3 ≤ w.length then [w] else []) ++
    (match rest with
     | [] => []
     | w2 :: _ => [w ++ " " ++ w2])

/-- The character-based candidate keys of an orphan name: its length-6,
8, 10 and 12 character prefixes, only for names without a space and
strictly longer than the cut. -/
def charKeysOf (name : String) : List String :=
  if name.contains ' ' then []
  else ([6, 8, 10, 12] : List Nat).filterMap (fun L =>
    if L < name.length then some (name.take L) else none)

/-- The bucket a candidate key accumulated: word-based contributors first
(in enumeration order), then character-based ones, as the Go merge of the
`wordPrefixes` and `charPrefixes` maps appends the latter. -/
def candidatesFor (k : String) (ns : List String) : List String :=
  ns.filter (fun n => decide (k ∈ wordKeysOf n)) ++
  ns.filter (fun n => decide (k ∈ charKeysOf n))

/-- Order of candidate keys: ascending length, ties lexicographic (the Go
`sort.Slice` comparator on the collected key slices). -/
def lenLex (a b : String) : Prop :=
  a.length < b.length ∨ (a.length = b.length ∧ a ≤ b)

instance (a b : String) : Decidable (lenLex a b) := by unfold lenLex; infer_instance

/-- All candidate keys in the order the Go loop visits them: sorted word
keys first, then sorted character keys. -/
def sortedKeyList (ns : List String) : List String :=
  List.insertionSort lenLex (uniqueList (ns.flatMap wordKeysOf)) ++
  List.insertionSort lenLex (uniqueList (ns.flatMap charKeysOf))

/-- Characters `regexp.QuoteMeta` escapes. -/
def isRegexSpecial (c : Char) : Bool :=
  c ∈ ['\\', '.', '+', '*', '?', '(', ')', '|', '[', ']', '\x7b', '\x7d', '^', '$']

/-- `regexp.QuoteMeta`. -/
def quoteMeta (s : String) : String :=
  String.mk (s.data.flatMap (fun c => if isRegexSpecial c then ['\\', c] else [c]))

/-- `isLikelySubscription` (suggest.go 184-207). -/
def isLikelySubscription (txs : List Transaction) (tolerance : ℚ) : Bool :=
  if txs.length < 3 then false
  else
    IsMonthlyPattern (sortByDate txs) && AmountsWithinTolerance (sortByDate txs) tolerance

/-- The candidate-key loop of `findPrefixGroups` (suggest.go 134-178):
skip keys with fewer than 3 matches or fewer than 3 distinct names, skip
name sets already seen (key: sorted names joined by a bar), otherwise emit
a suggestion over the pooled transactions of the matched names. -/
def buildGroups (byName : String → List Transaction) (ns : List String) :
    List String → List String → List GroupSuggestion
  | [], _ => []
  | p :: rest, seen =>
    let matched := candidatesFor p ns
    if matched.length < 3 then buildGroups byName ns rest seen
    else
      let uNames := uniqueList matched
      if uNames.length < 3 then buildGroups byName ns rest seen
      else
        let skey := String.intercalate "|"
          (List.insertionSort (fun a b : String => a ≤ b) uNames)
        if skey ∈ seen then buildGroups byName ns rest seen
        else
          let allT := uNames.flatMap byName
          { Prefix := p
            Pattern := "^" ++ quoteMeta p
            Names := uNames
            MonthCount := (uniqueList (allT.map (fun tx => monthKey tx.Date))).length
            Transactions := allT } :: buildGroups byName ns rest (skey :: seen)

/-- The greedy pass of `deduplicateSuggestions`: keep a suggestion only if
more than half of its names are not yet covered. -/
def greedyKeep : List GroupSuggestion → List String → List GroupSuggestion
  | [], _ => []
  | s :: rest, covered =>
    let newNames := (s.Names.filter (fun n => decide (n ∉ covered))).length
    if (divQ (mkRat (newNames : Int) 1) (mkRat (s.Names.length : Int) 1) > mkRat 1 2) then
      s :: greedyKeep rest (covered ++ s.Names)
    else greedyKeep rest covered

/-- `deduplicateSuggestions` (suggest.go 218-250). -/
def deduplicateSuggestions (suggestions : List GroupSuggestion) :
    List GroupSuggestion :=
  if suggestions.length ≤ 1 then suggestions
  else greedyKeep (List.insertionSort
    (fun a b => a.Prefix.length ≤ b.Prefix.length) suggestions) []

/-- The expense bucket of one exact payee name (`byName` in suggest.go). -/
def txsByNameOf (txs : List Transaction) : String → List Transaction :=
  fun n => (FilterExpenses txs).filter (fun tx => decide (tx.Text = n))

/-- `SuggestGroups` with the orphan-name enumeration order (which Go takes
from a randomised map iteration) made explicit. -/
def SuggestGroupsWith (txs : List Transaction) (tolerance : ℚ)
    (orphanNames : List String) : List GroupSuggestion :=
  let raw := buildGroups (txsByNameOf txs) orphanNames (sortedKeyList orphanNames) []
  let sugs := raw.filter (fun s => isLikelySubscription s.Transactions tolerance)
  List.insertionSort (fun a b => b.MonthCount ≤ a.MonthCount)
    (deduplicateSuggestions sugs)

/-- The orphan names (exact payee texts of expenses occurring at most
twice), in first-occurrence order as one possible map enumeration. -/
def canonicalOrphans (txs : List Transaction) : List String :=
  (uniqueList ((FilterExpenses txs).map (fun tx => tx.Text))).filter
    (fun n => decide ((txsByNameOf txs n).length ≤ 2))

/-- `SuggestGroups` (suggest.go 21-60). -/
def SuggestGroups (txs : List Transaction) (tolerance : ℚ) : List GroupSuggestion :=
  SuggestGroupsWith txs tolerance (canonicalOrphans txs)

/-! ### Properties of the monthly-pattern and tolerance checks -/

theorem absQ_eq_zero {q : ℚ} : absQ q = 0 ↔ q = 0 := by
  rw [absQ_eq_abs]; exact abs_eq_zero

theorem chainOK_iff (l : List ℚ) (tol : ℚ) (h : ∀ x ∈ l, x ≠ 0) :
    amountsChainOK l tol = true ↔ l.Chain' (fun p c => |c - p| / p ≤ tol) := by
  induction l with
  | nil => simp [amountsChainOK]
  | cons x xs ih =>
    cases xs with
    | nil => simp [amountsChainOK]
    | cons y ys =>
      have hx : x ≠ 0 := h x (by simp)
      have ih' := ih (fun z hz => h z (List.mem_cons_of_mem x hz))
      rw [List.chain'_cons, ← ih']
      simp only [amountsChainOK, tolViolation, if_neg hx, Bool.and_eq_true,
        Bool.not_eq_true', decide_eq_false_iff_not, not_lt, absQ_eq_abs,
        divQ_eq_div, subQ_eq_sub]

/-- C2: `AmountsWithinTolerance` (with nonzero amounts) accepts exactly the
nonempty lists whose consecutive absolute-amount pairs all change by at
most the tolerance fraction of the previous amount; an empty list is
rejected, a singleton accepted, and only consecutive (not cumulative)
drift is constrained. -/
theorem amountsWithinTolerance_iff (txs : List Transaction) (tolerance : ℚ)
    (h : ∀ tx ∈ txs, tx.Amount ≠ 0) :
    AmountsWithinTolerance txs tolerance = true ↔
      (txs ≠ [] ∧ txs.Chain'
        (fun a b => abs (|b.Amount| - |a.Amount|) / |a.Amount| ≤ tolerance)) := by
  match txs with
  | [] => simp [AmountsWithinTolerance]
  | [t] => simp [AmountsWithinTolerance]
  | t1 :: t2 :: rest =>
    have hlen : ¬ ((t1 :: t2 :: rest).length < 2) := by simp
    rw [AmountsWithinTolerance, if_neg hlen,
      chainOK_iff _ _ (fun x hx => by
        rcases List.mem_map.mp hx with ⟨tx, htx, rfl⟩
        simpa [absQ_eq_zero] using h tx htx),
      List.chain'_map]
    simp [absQ_eq_abs]

/-- Witness for C2: the gradual-drift sequence 100, 105, 110, 115 passes
tolerance 0.10 although the cumulative drift 15% exceeds it. -/
theorem amountsWithinTolerance_iff_witness :
    AmountsWithinTolerance
      [⟨⟨2025, 1, 1⟩, "a", mkRat (-100) 1⟩, ⟨⟨2025, 2, 1⟩, "a", mkRat (-105) 1⟩,
       ⟨⟨2025, 3, 1⟩, "a", mkRat (-110) 1⟩, ⟨⟨2025, 4, 1⟩, "a", mkRat (-115) 1⟩]
      (mkRat 1 10) = true ∧
    |(mkRat 115 1 : ℚ) - mkRat 100 1| / mkRat 100 1 > mkRat 1 10 :=
  ⟨(amountsWithinTolerance_iff _ _ (by decide)).mpr
      ⟨by decide, by
        simp only [List.chain'_cons, List.chain'_singleton, ← absQ_eq_abs,
          ← divQ_eq_div, ← subQ_eq_sub]
        decide⟩,
    by rw [← absQ_eq_abs, ← divQ_eq_div, ← subQ_eq_sub]; decide⟩

/-- C1: `IsMonthlyPattern` is false exactly when some populated calendar
year-month bucket has a count other than 1; it is true for the empty list
and for every singleton. -/
theorem isMonthlyPattern_false_iff :
    (∀ txs : List Transaction, IsMonthlyPattern txs = false ↔
      ∃ tx ∈ txs,
        countKey (monthKey tx.Date)
          (txs.map fun t : Transaction => monthKey t.Date) ≠ 1) ∧
    IsMonthlyPattern [] = true ∧
    (∀ tx : Transaction, IsMonthlyPattern [tx] = true) := by
  refine ⟨fun txs => ?_, by decide, fun tx => by simp [IsMonthlyPattern, countKey]⟩
  rw [IsMonthlyPattern, decide_eq_false_iff_not]
  constructor
  · intro hne
    push_neg at hne
    rcases hne with ⟨k, hk, hcount⟩
    rcases List.mem_map.mp hk with ⟨tx, htx, rfl⟩
    exact ⟨tx, htx, hcount⟩
  · intro ⟨tx, htx, hcount⟩ hall
    exact hcount (hall _ (List.mem_map.mpr ⟨tx, htx, rfl⟩))

/-- C8: the tolerance check is total, and a zero previous amount follows
the fixed IEEE-derived rule: a change from zero to a nonzero amount is a
violation (`x/0 = +Inf` exceeds every tolerance), zero to zero is not
(`0/0 = NaN` exceeds nothing), after which the scan continues. -/
theorem amountsWithinTolerance_zero_prev (t1 t2 : Transaction)
    (rest : List Transaction) (tolerance : ℚ) (h : t1.Amount = 0) :
    AmountsWithinTolerance (t1 :: t2 :: rest) tolerance =
      (decide (t2.Amount = 0) && AmountsWithinTolerance (t2 :: rest) tolerance) := by
  have habs : absQ t1.Amount = 0 := by rw [h]; simp [absQ]
  cases rest with
  | nil =>
    simp [AmountsWithinTolerance, amountsChainOK, tolViolation, habs, absQ_eq_zero]
  | cons t3 rest' =>
    simp only [AmountsWithinTolerance, List.length_cons, List.map_cons]
    rw [if_neg (by simp), if_neg (by simp)]
    simp [amountsChainOK, tolViolation, habs, absQ_eq_zero]

/-- Witness for C8 at a concrete zero-amount transaction. -/
theorem amountsWithinTolerance_zero_prev_witness :
    AmountsWithinTolerance
      [⟨⟨2025, 1, 1⟩, "a", 0⟩, ⟨⟨2025, 2, 1⟩, "a", mkRat (-5) 1⟩] (mkRat 1 2) =
      (decide ((mkRat (-5) 1 : ℚ) = 0) &&
        AmountsWithinTolerance [⟨⟨2025, 2, 1⟩, "a", mkRat (-5) 1⟩] (mkRat 1 2)) :=
  amountsWithinTolerance_zero_prev ⟨⟨2025, 1, 1⟩, "a", 0⟩
    ⟨⟨2025, 2, 1⟩, "a", mkRat (-5) 1⟩ [] (mkRat 1 2) rfl

/-! ### Date normalisation lemmas -/

theorem normMonth_id (y m : Int) (h1 : 1 ≤ m) (h2 : m ≤ 12) :
    normMonth y m = (y, m) := by
  simp only [normMonth]
  rw [if_neg (show ¬ (m - 1 < 0) by omega)]
  rw [if_neg (show ¬ ((y, m - 1).2 ≥ 12) by simp; omega)]
  simp

theorem normDayCarry_base (fuel : Nat) (y m d : Int) (h : d ≤ daysInMonth y m) :
    normDayCarry fuel y m d = ⟨y, m, d⟩ := by
  unfold normDayCarry
  rw [if_pos h]

theorem normDayBorrow_base (fuel : Nat) (y m d : Int) (h1 : 1 ≤ d)
    (h2 : d ≤ daysInMonth y m) : normDayBorrow fuel y m d = ⟨y, m, d⟩ := by
  unfold normDayBorrow
  rw [if_pos h1]
  exact normDayCarry_base _ _ _ _ h2

theorem mkDate_id (y m d : Int) (h1 : 1 ≤ m) (h2 : m ≤ 12) (h3 : 1 ≤ d)
    (h4 : d ≤ daysInMonth y m) : mkDate y m d = ⟨y, m, d⟩ := by
  unfold mkDate
  rw [normMonth_id y m h1 h2]
  exact normDayBorrow_base _ _ _ _ h3 h4

theorem normDayBorrow_zero (fuel : Nat) (y m : Int) :
    normDayBorrow (fuel + 1) y m 0 =
      if m = 1 then ⟨y - 1, 12, daysInMonth (y - 1) 12⟩
      else ⟨y, m - 1, daysInMonth y (m - 1)⟩ := by
  rw [normDayBorrow]
  rw [if_neg (by omega)]
  split_ifs with hm
  · rw [zero_add,
      normDayBorrow_base _ _ _ _ (by have := daysInMonth_ge28 (y - 1) 12; omega) (le_refl _)]
  · rw [zero_add,
      normDayBorrow_base _ _ _ _ (by have := daysInMonth_ge28 y (m - 1); omega) (le_refl _)]

/-- The Go last-day idiom `time.Date(y, m+1, 0, ...)` yields the last day
of month `m` (month lengths and leap years included). -/
theorem mkDate_last_day (y m : Int) (h1 : 1 ≤ m) (h2 : m ≤ 12) :
    mkDate y (m + 1) 0 = ⟨y, m, daysInMonth y m⟩ := by
  unfold mkDate
  rcases eq_or_ne m 12 with rfl | hm
  · have hn : normMonth y (12 + 1) = (y + 1, 1) := by
      unfold normMonth
      norm_num
    rw [hn]
    simp only [normDayBorrow_zero]
    norm_num
  · rw [normMonth_id y (m + 1) (by omega) (by omega)]
    simp only [normDayBorrow_zero]
    rw [if_neg (by omega)]
    simp

/-- C3: `DetermineStatus` is Active when the last payment lies in the end
month; Stopped when the calendar-month difference exceeds 1; and at a
difference of exactly 1 it is Stopped iff the end date lies strictly after
the expected date plus 5 days, the expected day being the typical day
clamped to the end month's actual last day. -/
theorem determineStatus_spec (lp endD : Date) (typ : Int)
    (hlp : ValidDate lp) (hend : ValidDate endD) (htyp : 1 ≤ typ) :
    ((lp.year, lp.month) = (endD.year, endD.month) →
      DetermineStatus lp typ endD = .active) ∧
    ((endD.year - lp.year) * 12 + (endD.month - lp.month) > 1 →
      DetermineStatus lp typ endD = .stopped) ∧
    ((endD.year - lp.year) * 12 + (endD.month - lp.month) = 1 →
      (DetermineStatus lp typ endD = .stopped ↔
        dateLt (mkDate endD.year endD.month
          (min typ (daysInMonth endD.year endD.month) + 5)) endD)) := by
  obtain ⟨hm1, hm2, -, -⟩ := hlp
  obtain ⟨he1, he2, -, -⟩ := hend
  have d28e := daysInMonth_ge28 endD.year endD.month
  have hlps : mkDate lp.year lp.month 1 = ⟨lp.year, lp.month, 1⟩ :=
    mkDate_id _ _ _ hm1 hm2 (by omega) (by have := daysInMonth_ge28 lp.year lp.month; omega)
  have hcms : mkDate endD.year endD.month 1 = ⟨endD.year, endD.month, 1⟩ :=
    mkDate_id _ _ _ he1 he2 (by omega) (by omega)
  refine ⟨fun hp => ?_, fun hd => ?_, fun hd => ?_⟩
  · have h1 : lp.year = endD.year := congrArg Prod.fst hp
    have h2 : lp.month = endD.month := congrArg Prod.snd hp
    simp only [DetermineStatus, hlps, hcms]
    rw [if_pos (by rw [h1, h2])]
  · simp only [DetermineStatus, hlps, hcms]
    rw [if_neg (fun hc => by injection hc with a b c; omega), if_pos (by omega)]
  · simp only [DetermineStatus, hlps, hcms]
    rw [if_neg (fun hc => by injection hc with a b c; omega), if_neg (by omega),
      mkDate_last_day endD.year endD.month he1 he2]
    have hmin : (if typ > (Date.mk endD.year endD.month
        (daysInMonth endD.year endD.month)).day
        then (Date.mk endD.year endD.month (daysInMonth endD.year endD.month)).day
        else typ) = min typ (daysInMonth endD.year endD.month) := by
      simp only []
      split_ifs with h
      · exact (min_eq_right (by omega)).symm
      · exact (min_eq_left (by omega)).symm
    rw [hmin,
      mkDate_id endD.year endD.month _ he1 he2 (le_min htyp (by omega)) (min_le_right _ _)]
    simp only [addDateGo, add_zero]
    split_ifs with hgr
    · simp [hgr]
    · simp [hgr]

/-- Witness for C3: last payment 2025-02-15 with typical day 15 and data
end 2025-03-25 (10 days past the expected date) is Stopped, and typical
day 31 against a 28-day February (end 2025-02-20, grace until March 5) is
clamped and still Active. -/
theorem determineStatus_spec_witness :
    DetermineStatus ⟨2025, 2, 15⟩ 15 ⟨2025, 3, 25⟩ = .stopped ∧
    DetermineStatus ⟨2025, 1, 31⟩ 31 ⟨2025, 2, 20⟩ = .active := by
  constructor
  · exact ((determineStatus_spec ⟨2025, 2, 15⟩ ⟨2025, 3, 25⟩ 15 (by decide) (by decide)
      (by decide)).2.2 (by decide)).mpr (by decide)
  · have h := (determineStatus_spec ⟨2025, 1, 31⟩ ⟨2025, 2, 20⟩ 31 (by decide) (by decide)
      (by decide)).2.2 (by decide)
    cases hds : DetermineStatus ⟨2025, 1, 31⟩ 31 ⟨2025, 2, 20⟩ with
    | active => rfl
    | stopped => exact absurd (h.mp hds) (by decide)

/-! ### Order lemmas for dates and the coverage analysis -/

theorem dateLt_trichotomy (a b : Date) : dateLt a b ∨ a = b ∨ dateLt b a := by
  obtain ⟨ay, am, ad⟩ := a
  obtain ⟨by_, bm, bd⟩ := b
  simp only [dateLt, Date.mk.injEq]
  omega

theorem dateLt_irrefl (a : Date) : ¬ dateLt a a := by
  obtain ⟨ay, am, ad⟩ := a
  simp only [dateLt]
  omega

theorem dateLt_trans {a b c : Date} (h1 : dateLt a b) (h2 : dateLt b c) :
    dateLt a c := by
  obtain ⟨ay, am, ad⟩ := a
  obtain ⟨by_, bm, bd⟩ := b
  obtain ⟨cy, cm, cd⟩ := c
  simp only [dateLt] at *
  omega

theorem dateLE_of_not_lt {a b : Date} (h : ¬ dateLt b a) : dateLE a b := h

/-- The running minimum kept by the `minDate` fold of
`AnalyzeDataCoverage`: the result is one of the candidates and is a lower
bound. -/
theorem foldl_minD_spec (txs : List Transaction) :
    ∀ a : Date,
      ((txs.foldl (fun acc tx => if dateLt tx.Date acc then tx.Date else acc) a = a ∨
        ∃ tx ∈ txs,
          txs.foldl (fun acc tx => if dateLt tx.Date acc then tx.Date else acc) a
            = tx.Date) ∧
       dateLE (txs.foldl (fun acc tx => if dateLt tx.Date acc then tx.Date else acc) a) a ∧
       ∀ tx ∈ txs,
         dateLE (txs.foldl (fun acc tx => if dateLt tx.Date acc then tx.Date else acc) a)
           tx.Date) := by
  induction txs with
  | nil => exact fun a => ⟨Or.inl rfl, dateLt_irrefl a, by simp⟩
  | cons t rest ih =>
    intro a
    simp only [List.foldl_cons]
    by_cases hlt : dateLt t.Date a
    · rw [if_pos hlt]
      rcases ih t.Date with ⟨hmem, hle, hall⟩
      refine ⟨?_, ?_, ?_⟩
      · rcases hmem with h | ⟨tx, htx, h⟩
        · exact Or.inr ⟨t, by simp, h⟩
        · exact Or.inr ⟨tx, by simp [htx], h⟩
      · intro hca
        exact hle (dateLt_trans hlt hca)
      · intro tx htx
        rcases List.mem_cons.mp htx with rfl | htx'
        · exact hle
        · exact hall tx htx'
    · rw [if_neg hlt]
      rcases ih a with ⟨hmem, hle, hall⟩
      refine ⟨?_, hle, ?_⟩
      · rcases hmem with h | ⟨tx, htx, h⟩
        · exact Or.inl h
        · exact Or.inr ⟨tx, by simp [htx], h⟩
      · intro tx htx
        rcases List.mem_cons.mp htx with rfl | htx'
        · intro hca
          exact hlt (by
            rcases dateLt_trichotomy tx.Date a with h | h | h
            · exact h
            · exact absurd (h ▸ hca) (hle)
            · exact absurd (dateLt_trans h hca) hle )
        · exact hall tx htx'

/-- The running maximum kept by the `maxDate` fold. -/
theorem foldl_maxD_spec (txs : List Transaction) :
    ∀ a : Date,
      ((txs.foldl (fun acc tx => if dateLt acc tx.Date then tx.Date else acc) a = a ∨
        ∃ tx ∈ txs,
          txs.foldl (fun acc tx => if dateLt acc tx.Date then tx.Date else acc) a
            = tx.Date) ∧
       dateLE a (txs.foldl (fun acc tx => if dateLt acc tx.Date then tx.Date else acc) a) ∧
       ∀ tx ∈ txs,
         dateLE tx.Date
           (txs.foldl (fun acc tx => if dateLt acc tx.Date then tx.Date else acc) a)) := by
  induction txs with
  | nil => exact fun a => ⟨Or.inl rfl, dateLt_irrefl a, by simp⟩
  | cons t rest ih =>
    intro a
    simp only [List.foldl_cons]
    by_cases hlt : dateLt a t.Date
    · rw [if_pos hlt]
      rcases ih t.Date with ⟨hmem, hle, hall⟩
      refine ⟨?_, ?_, ?_⟩
      · rcases hmem with h | ⟨tx, htx, h⟩
        · exact Or.inr ⟨t, by simp, h⟩
        · exact Or.inr ⟨tx, by simp [htx], h⟩
      · intro hca
        exact hle (dateLt_trans hca hlt)
      · intro tx htx
        rcases List.mem_cons.mp htx with rfl | htx'
        · exact hle
        · exact hall tx htx'
    · rw [if_neg hlt]
      rcases ih a with ⟨hmem, hle, hall⟩
      refine ⟨?_, hle, ?_⟩
      · rcases hmem with h | ⟨tx, htx, h⟩
        · exact Or.inl h
        · exact Or.inr ⟨tx, by simp [htx], h⟩
      · intro tx htx
        rcases List.mem_cons.mp htx with rfl | htx'
        · intro hca
          exact hlt (by
            rcases dateLt_trichotomy a tx.Date with h | h | h
            · exact h
            · exact absurd (h ▸ hca) (hle)
            · exact absurd (dateLt_trans hca h) hle )
        · exact hall tx htx'

/-- Membership in the month sequence, by month index. -/
theorem monthSeq_mem (n : Nat) :
    ∀ (y m y' m' : Int), 1 ≤ m → m ≤ 12 →
      ((y', m') ∈ monthSeq y m n ↔
        (1 ≤ m' ∧ m' ≤ 12 ∧ 12 * y + m ≤ 12 * y' + m' ∧
         12 * y' + m' < 12 * y + m + n)) := by
  induction n with
  | zero =>
    intro y m y' m' h1 h2
    simp only [monthSeq, List.not_mem_nil, false_iff]
    omega
  | succ n ih =>
    intro y m y' m' h1 h2
    simp only [monthSeq, List.mem_cons]
    constructor
    · rintro (heq | hmem)
      · have hy : y' = y := congrArg Prod.fst heq
        have hm : m' = m := congrArg Prod.snd heq
        omega
      · by_cases hm12 : m = 12
        · rw [if_pos hm12] at hmem
          have := (ih (y + 1) 1 y' m' (by omega) (by omega)).mp hmem
          omega
        · rw [if_neg hm12] at hmem
          have := (ih y (m + 1) y' m' (by omega) (by omega)).mp hmem
          omega
    · intro hb
      by_cases heq : 12 * y' + m' = 12 * y + m
      · left
        have : y' = y ∧ m' = m := by omega
        rw [this.1, this.2]
      · right
        by_cases hm12 : m = 12
        · rw [if_pos hm12]
          exact (ih (y + 1) 1 y' m' (by omega) (by omega)).mpr (by omega)
        · rw [if_neg hm12]
          exact (ih y (m + 1) y' m' (by omega) (by omega)).mpr (by omega)

/-- C4: `AnalyzeDataCoverage` returns the min/max-date range and exactly
the complete months: every month from the min month to the max month whose
index is strictly below the max month's, plus the max month itself exactly
when the max date is its last calendar day (month lengths and leap years
respected via `daysInMonth`); the empty input yields no months and the
zero-valued range. -/
theorem analyzeDataCoverage_spec :
    (∀ txs : List Transaction, txs ≠ [] → (∀ tx ∈ txs, ValidDate tx.Date) →
      ((AnalyzeDataCoverage txs).2.Start ∈ txs.map (fun tx : Transaction => tx.Date) ∧
       (∀ tx ∈ txs, dateLE (AnalyzeDataCoverage txs).2.Start tx.Date) ∧
       (AnalyzeDataCoverage txs).2.End ∈ txs.map (fun tx : Transaction => tx.Date) ∧
       (∀ tx ∈ txs, dateLE tx.Date (AnalyzeDataCoverage txs).2.End) ∧
       (∀ y m : Int, (y, m) ∈ (AnalyzeDataCoverage txs).1 ↔
         (1 ≤ m ∧ m ≤ 12 ∧
          12 * (AnalyzeDataCoverage txs).2.Start.year +
              (AnalyzeDataCoverage txs).2.Start.month ≤ 12 * y + m ∧
          12 * y + m ≤ 12 * (AnalyzeDataCoverage txs).2.End.year +
              (AnalyzeDataCoverage txs).2.End.month ∧
          (12 * y + m < 12 * (AnalyzeDataCoverage txs).2.End.year +
              (AnalyzeDataCoverage txs).2.End.month ∨
           (AnalyzeDataCoverage txs).2.End.day = daysInMonth y m))))) ∧
    AnalyzeDataCoverage [] = ([], ⟨⟨1, 1, 1⟩, ⟨1, 1, 1⟩⟩) := by
  constructor
  · intro txs hne hv
    match txs, hne with
    | t :: rest, _ =>
    obtain ⟨hminMem, -, hminLB⟩ := foldl_minD_spec (t :: rest) t.Date
    obtain ⟨hmaxMem, -, hmaxUB⟩ := foldl_maxD_spec (t :: rest) t.Date
    simp only [AnalyzeDataCoverage]
    set minD := (t :: rest).foldl
      (fun acc tx => if dateLt tx.Date acc then tx.Date else acc) t.Date with hmin
    set maxD := (t :: rest).foldl
      (fun acc tx => if dateLt acc tx.Date then tx.Date else acc) t.Date with hmax
    have hminMem' : minD ∈ (t :: rest).map (fun tx : Transaction => tx.Date) := by
      rcases hminMem with h | ⟨tx, htx, h⟩
      · exact h ▸ List.mem_map.mpr ⟨t, by simp, rfl⟩
      · exact h ▸ List.mem_map.mpr ⟨tx, htx, rfl⟩
    have hmaxMem' : maxD ∈ (t :: rest).map (fun tx : Transaction => tx.Date) := by
      rcases hmaxMem with h | ⟨tx, htx, h⟩
      · exact h ▸ List.mem_map.mpr ⟨t, by simp, rfl⟩
      · exact h ▸ List.mem_map.mpr ⟨tx, htx, rfl⟩
    have hvmin : ValidDate minD := by
      rcases List.mem_map.mp hminMem' with ⟨tx, htx, h⟩
      exact h ▸ hv tx htx
    have hvmax : ValidDate maxD := by
      rcases List.mem_map.mp hmaxMem' with ⟨tx, htx, h⟩
      exact h ▸ hv tx htx
    obtain ⟨hn1, hn2, -, -⟩ := hvmin
    obtain ⟨hx1, hx2, -, -⟩ := hvmax
    have hle : dateLE minD maxD := by
      rcases List.mem_map.mp hmaxMem' with ⟨tx, htx, h⟩
      exact h ▸ hminLB tx htx
    have hidx : 12 * minD.year + minD.month ≤ 12 * maxD.year + maxD.month := by
      rw [dateLE] at hle
      rw [dateLt] at hle
      omega
    refine ⟨hminMem', hminLB, hmaxMem', hmaxUB, ?_⟩
    intro y m
    rw [List.mem_filter]
    have hms := monthSeq_mem
      (maxD.year * 12 + maxD.month + 1 - (minD.year * 12 + minD.month)).toNat
      minD.year minD.month y m hn1 hn2
    constructor
    · rintro ⟨hmem, hpred⟩
      have hb := hms.mp hmem
      by_cases heq : (y, m) = (maxD.year, maxD.month)
      · have h1 : y = maxD.year := congrArg Prod.fst heq
        have h2 : m = maxD.month := congrArg Prod.snd heq
        rw [if_pos heq] at hpred
        have hday := of_decide_eq_true hpred
        rw [mkDate_last_day y m (by omega) (by omega)] at hday
        exact ⟨by omega, by omega, by omega, by omega, Or.inr hday⟩
      · have hine : 12 * y + m ≠ 12 * maxD.year + maxD.month := by
          intro hc
          exact heq (by
            have : y = maxD.year ∧ m = maxD.month := by omega
            rw [this.1, this.2])
        refine ⟨by omega, by omega, by omega, by omega, Or.inl (by omega)⟩
    · rintro ⟨h1, h2, h3, h4, h5⟩
      refine ⟨hms.mpr ⟨h1, h2, h3, by omega⟩, ?_⟩
      by_cases heq : (y, m) = (maxD.year, maxD.month)
      · rw [if_pos heq]
        have hy : y = maxD.year := congrArg Prod.fst heq
        have hm : m = maxD.month := congrArg Prod.snd heq
        rcases h5 with h5 | h5
        · omega
        · rw [mkDate_last_day y m (by omega) (by omega)]
          exact decide_eq_true h5
      · rw [if_neg heq]
  · rfl

/-- Witness for C4 at a concrete transaction list spanning 2024-09-15 to
2025-01-10: exactly the four months Sep–Dec 2024 are complete. -/
theorem analyzeDataCoverage_spec_witness :
    ((2024, 10) ∈ (AnalyzeDataCoverage
      [⟨⟨2024, 9, 15⟩, "a", mkRat (-1) 1⟩, ⟨⟨2025, 1, 10⟩, "b", mkRat (-2) 1⟩]).1 ∧
     ¬ (2025, 1) ∈ (AnalyzeDataCoverage
      [⟨⟨2024, 9, 15⟩, "a", mkRat (-1) 1⟩, ⟨⟨2025, 1, 10⟩, "b", mkRat (-2) 1⟩]).1) ∧
    AnalyzeDataCoverage [] = ([], ⟨⟨1, 1, 1⟩, ⟨1, 1, 1⟩⟩) := by
  have h := (analyzeDataCoverage_spec.1
    [⟨⟨2024, 9, 15⟩, "a", mkRat (-1) 1⟩, ⟨⟨2025, 1, 10⟩, "b", mkRat (-2) 1⟩]
    (by decide) (by decide)).2.2.2.2
  refine ⟨⟨(h 2024 10).mpr (by decide), fun hc => ?_⟩, analyzeDataCoverage_spec.2⟩
  have := (h 2025 1).mp hc
  revert this
  decide

/-! ### Membership plumbing for the two detectors -/

theorem mem_uniqueList {α : Type} [DecidableEq α] {a : α} :
    ∀ {l : List α}, a ∈ uniqueList l ↔ a ∈ l := by
  intro l
  induction l with
  | nil => simp [uniqueList]
  | cons x xs ih =>
    simp only [uniqueList, List.mem_cons, List.mem_filter, decide_eq_true_eq]
    constructor
    · rintro (rfl | ⟨h, -⟩)
      · exact Or.inl rfl
      · exact Or.inr (ih.mp h)
    · rintro (rfl | h)
      · exact Or.inl rfl
      · by_cases hx : a = x
        · exact Or.inl hx
        · exact Or.inr ⟨ih.mpr h, hx⟩

theorem nodup_uniqueList {α : Type} [DecidableEq α] :
    ∀ (l : List α), (uniqueList l).Nodup := by
  intro l
  induction l with
  | nil => simp [uniqueList]
  | cons x xs ih =>
    refine List.Nodup.cons ?_ (ih.filter _)
    intro hmem
    have hx := (List.mem_filter.mp hmem).2
    simp at hx

theorem mem_FilterExpenses {tx : Transaction} {l : List Transaction} :
    tx ∈ FilterExpenses l ↔ tx ∈ l ∧ tx.Amount < 0 := by
  simp [FilterExpenses, List.mem_filter]

theorem mem_sortByDate {tx : Transaction} {l : List Transaction} :
    tx ∈ sortByDate l ↔ tx ∈ l := by
  simp [sortByDate]

theorem mem_consumedTxs {tx : Transaction} {allTxs : List Transaction}
    {known : List KnownSubscription} :
    tx ∈ consumedTxs allTxs known ↔
      tx ∈ allTxs ∧ tx.Amount < 0 ∧ (MatchesKnown known tx).isSome := by
  simp [consumedTxs, List.mem_filter, and_assoc]

/-- Inversion of one `DetectSubscriptions` loop body: the fields the claims
inspect. -/
theorem detectForKey_inv {f a : List Transaction} {dr : DateRange} {tol : ℚ}
    {key : String} {sub : Subscription}
    (h : detectForKey f a dr tol key = some sub) :
    sub.Transactions = sortByDate (FilterExpenses
      (a.filter (fun tx => decide (toLowerStr tx.Text = key)))) ∧
    sub.Name = displayName f a key := by
  simp only [detectForKey] at h
  split_ifs at h
  cases h
  exact ⟨rfl, rfl⟩

theorem mem_DetectSubscriptions {f a : List Transaction} {dr : DateRange}
    {tol : ℚ} {sub : Subscription} :
    sub ∈ DetectSubscriptions f a dr tol ↔
      ∃ key ∈ uniqueList (f.map (fun tx => toLowerStr tx.Text)),
        detectForKey f a dr tol key = some sub := by
  simp [DetectSubscriptions, sortSubs, List.mem_filterMap]

theorem mem_knownGroups {allTxs : List Transaction}
    {known : List KnownSubscription} {g : String × List Transaction} :
    g ∈ knownGroups allTxs known ↔
      g.1 ∈ uniqueList ((consumedTxs allTxs known).filterMap (patternOf known)) ∧
      g.2 = (consumedTxs allTxs known).filter
        (fun tx => decide (patternOf known tx = some g.1)) := by
  simp only [knownGroups, List.mem_map]
  constructor
  · rintro ⟨p, hp, rfl⟩
    exact ⟨hp, rfl⟩
  · rintro ⟨hp, hg⟩
    exact ⟨g.1, hp, by rw [← hg]⟩

theorem mem_DetectKnown {allTxs : List Transaction} {dr : DateRange}
    {known : List KnownSubscription} {sub : Subscription} :
    sub ∈ (DetectKnownSubscriptions allTxs dr known).1 ↔
      ¬ known.isEmpty ∧ ∃ g ∈ knownGroups allTxs known,
        ¬ g.2.isEmpty ∧ sub = mkKnownSub dr g.2 := by
  by_cases hk : known.isEmpty
  · simp [DetectKnownSubscriptions, hk]
  · simp only [DetectKnownSubscriptions, if_neg hk, sortSubs,
      List.mem_insertionSort, List.mem_map, List.mem_filter]
    constructor
    · rintro ⟨g, ⟨hg, hne⟩, rfl⟩
      exact ⟨hk, g, hg, by simpa using hne, rfl⟩
    · rintro ⟨-, g, hg, hne, rfl⟩
      exact ⟨g, ⟨hg, by simpa using hne⟩, rfl⟩

/-- C10: every transaction in the `Transactions` list of any subscription
returned by either detector has a strictly negative amount; in particular
zero-amount transactions are excluded from both detection paths. -/
theorem detected_transactions_negative :
    (∀ (f a : List Transaction) (dr : DateRange) (tol : ℚ)
        (sub : Subscription), sub ∈ DetectSubscriptions f a dr tol →
      ∀ tx ∈ sub.Transactions, tx.Amount < 0) ∧
    (∀ (a : List Transaction) (dr : DateRange) (known : List KnownSubscription)
        (sub : Subscription), sub ∈ (DetectKnownSubscriptions a dr known).1 →
      ∀ tx ∈ sub.Transactions, tx.Amount < 0) := by
  constructor
  · intro f a dr tol sub hsub tx htx
    obtain ⟨key, -, hk⟩ := mem_DetectSubscriptions.mp hsub
    rw [(detectForKey_inv hk).1] at htx
    exact (mem_FilterExpenses.mp (mem_sortByDate.mp htx)).2
  · intro a dr known sub hsub tx htx
    obtain ⟨-, g, hg, -, rfl⟩ := mem_DetectKnown.mp hsub
    have htx' : tx ∈ g.2 := by
      simpa [mkKnownSub, mem_sortByDate] using htx
    rw [(mem_knownGroups.mp hg).2] at htx'
    exact (mem_consumedTxs.mp (List.mem_of_mem_filter htx')).2.1

/-- Witness for C10 on a concrete run of the pattern detector. -/
theorem detected_transactions_negative_witness :
    ((mkRat (-99) 1 : ℚ) < 0) ∧ ¬ ((0 : ℚ) < 0) := by
  constructor
  · exact detected_transactions_negative.1
      [⟨⟨2025, 1, 10⟩, "netflix", mkRat (-99) 1⟩, ⟨⟨2025, 2, 10⟩, "netflix", mkRat (-99) 1⟩]
      [⟨⟨2025, 1, 10⟩, "netflix", mkRat (-99) 1⟩, ⟨⟨2025, 2, 10⟩, "netflix", mkRat (-99) 1⟩]
      ⟨⟨2025, 1, 10⟩, ⟨2025, 2, 10⟩⟩ (mkRat 1 10)
      { Name := "netflix", AvgAmount := mkRat (-99) 1, LatestAmount := mkRat (-99) 1,
        MinAmount := mkRat 99 1, MaxAmount := mkRat 99 1,
        Transactions := [⟨⟨2025, 1, 10⟩, "netflix", mkRat (-99) 1⟩,
          ⟨⟨2025, 2, 10⟩, "netflix", mkRat (-99) 1⟩],
        StartDate := ⟨2025, 1, 10⟩, LastDate := ⟨2025, 2, 10⟩,
        TypicalDay := 10, Status := .active }
      (by decide) ⟨⟨2025, 1, 10⟩, "netflix", mkRat (-99) 1⟩ (by decide)
  · decide

/-- C5: a transaction is consumed by known-pattern detection iff it is a
negative-amount transaction matched by some configured rule; a rule
matches exactly when its compiled regex accepts the text, the absolute
amount lies inside the inclusive optional bounds, the date is strictly
before the optional `before` bound and on-or-after the optional `after`
bound; rules are tried in order with the first match winning; a rule
without a compiled regex never matches. -/
theorem knownMatching_spec :
    (∀ (allTxs : List Transaction) (dateRange : DateRange)
        (known : List KnownSubscription) (tx : Transaction),
      (∃ sub ∈ (DetectKnownSubscriptions allTxs dateRange known).1,
          tx ∈ sub.Transactions) ↔
        (tx ∈ allTxs ∧ tx.Amount < 0 ∧ ∃ k ∈ known, Matches k tx = true)) ∧
    (∀ (k : KnownSubscription) (tx : Transaction),
      Matches k tx = true ↔
        ((∃ re, k.regex = some re ∧ re tx.Text = true) ∧
         (∀ mn, k.MinAmount = some mn → mn ≤ |tx.Amount|) ∧
         (∀ mx, k.MaxAmount = some mx → |tx.Amount| ≤ mx) ∧
         (∀ b, k.beforeDate = some b → dateLt tx.Date b) ∧
         (∀ a, k.afterDate = some a → ¬ dateLt tx.Date a))) ∧
    (∀ (k : KnownSubscription) (rest : List KnownSubscription) (tx : Transaction),
      MatchesKnown (k :: rest) tx =
        if Matches k tx = true then some k else MatchesKnown rest tx) ∧
    (∀ (k : KnownSubscription) (tx : Transaction), k.regex = none →
      Matches k tx = false) := by
  have hmatches : ∀ (k : KnownSubscription) (tx : Transaction),
      Matches k tx = true ↔
        ((∃ re, k.regex = some re ∧ re tx.Text = true) ∧
         (∀ mn, k.MinAmount = some mn → mn ≤ |tx.Amount|) ∧
         (∀ mx, k.MaxAmount = some mx → |tx.Amount| ≤ mx) ∧
         (∀ b, k.beforeDate = some b → dateLt tx.Date b) ∧
         (∀ a, k.afterDate = some a → ¬ dateLt tx.Date a)) := by
    intro k tx
    obtain ⟨p, re, mn, mx, bd, ad⟩ := k
    rcases re with _ | re
    · simp [Matches]
    · rcases mn with _ | mn <;> rcases mx with _ | mx <;>
        rcases bd with _ | bd <;> rcases ad with _ | ad <;>
        simp [Matches, absQ_eq_abs, not_lt, ← and_assoc]
  refine ⟨?_, hmatches, ?_, ?_⟩
  · intro allTxs dateRange known tx
    constructor
    · rintro ⟨sub, hsub, htx⟩
      obtain ⟨-, g, hg, -, rfl⟩ := mem_DetectKnown.mp hsub
      have htx' : tx ∈ g.2 := by
        simpa [mkKnownSub, mem_sortByDate] using htx
      rw [(mem_knownGroups.mp hg).2] at htx'
      obtain ⟨hin, hneg, hsome⟩ := mem_consumedTxs.mp (List.mem_of_mem_filter htx')
      rw [MatchesKnown] at hsome
      obtain ⟨k, hk, hp⟩ := List.find?_isSome.mp hsome
      exact ⟨hin, hneg, k, hk, hp⟩
    · rintro ⟨hin, hneg, k, hk, hm⟩
      have hkne : ¬ known.isEmpty := by
        simp [List.isEmpty_iff, List.ne_nil_of_mem hk]
      have hsome : (MatchesKnown known tx).isSome := by
        rw [MatchesKnown]
        exact List.find?_isSome.mpr ⟨k, hk, hm⟩
      have htxc : tx ∈ consumedTxs allTxs known := mem_consumedTxs.mpr ⟨hin, hneg, hsome⟩
      obtain ⟨k', hk'⟩ := Option.isSome_iff_exists.mp hsome
      have hpat : patternOf known tx = some k'.Pattern := by
        rw [patternOf, hk']
        rfl
      refine ⟨mkKnownSub dateRange ((consumedTxs allTxs known).filter
        (fun tx' => decide (patternOf known tx' = some k'.Pattern))), ?_, ?_⟩
      · refine mem_DetectKnown.mpr ⟨hkne,
          (k'.Pattern, (consumedTxs allTxs known).filter
            (fun tx' => decide (patternOf known tx' = some k'.Pattern))), ?_, ?_, rfl⟩
        · exact mem_knownGroups.mpr
            ⟨mem_uniqueList.mpr (List.mem_filterMap.mpr ⟨tx, htxc, hpat⟩), rfl⟩
        · simp only [List.isEmpty_iff]
          exact List.ne_nil_of_mem
            (List.mem_filter.mpr ⟨htxc, decide_eq_true hpat⟩)
      · simp only [mkKnownSub, mem_sortByDate]
        exact List.mem_filter.mpr ⟨htxc, decide_eq_true hpat⟩
  · intro k rest tx
    by_cases h : Matches k tx = true
    · rw [if_pos h]
      simp [MatchesKnown, List.find?, h]
    · rw [if_neg h]
      simp only [MatchesKnown, List.find?]
      rw [Bool.of_not_eq_true h]
  · intro k tx h
    simp [Matches, h]

/-- Concrete rule for the C5 witness: a matcher for "NETFLIX" with amount
bounds [50, 150] and date bounds [2025-01-01, 2026-01-01). -/
def c5rule : KnownSubscription :=
  ⟨"NETFLIX", some (fun s => s == "NETFLIX"), some (mkRat 50 1),
    some (mkRat 150 1), some ⟨2026, 1, 1⟩, some ⟨2025, 1, 1⟩⟩

/-- Witness for C5: a single in-bounds expense is consumed by the rule. -/
theorem knownMatching_spec_witness :
    ∃ sub ∈ (DetectKnownSubscriptions [⟨⟨2025, 2, 10⟩, "NETFLIX", mkRat (-99) 1⟩]
      ⟨⟨2025, 2, 10⟩, ⟨2025, 2, 10⟩⟩ [c5rule]).1,
      (⟨⟨2025, 2, 10⟩, "NETFLIX", mkRat (-99) 1⟩ : Transaction) ∈ sub.Transactions :=
  (knownMatching_spec.1 _ _ _ _).mpr
    ⟨by simp, by decide, c5rule, List.mem_singleton.mpr rfl,
      (knownMatching_spec.2.1 c5rule ⟨⟨2025, 2, 10⟩, "NETFLIX", mkRat (-99) 1⟩).mpr
        ⟨⟨_, rfl, by decide⟩,
         fun mn h => by cases h; rw [← absQ_eq_abs]; decide,
         fun mx h => by cases h; rw [← absQ_eq_abs]; decide,
         fun b h => by cases h; decide,
         fun a h => by cases h; decide⟩⟩

/-- C7: in the `run` pipeline no transaction appears both in a
known-pattern subscription and in a pattern-detected subscription —
every consumed transaction's lowercased text is in the matched set, and
`FilterOutMatched` removes all such transactions before pattern
detection. -/
theorem pipeline_disjoint (transactions : List Transaction)
    (completeMonths : List (Int × Int)) (dateRange : DateRange) (tolerance : ℚ)
    (known : List KnownSubscription) :
    ∀ subK ∈ (runDetection transactions completeMonths dateRange tolerance known).1,
    ∀ subP ∈ (runDetection transactions completeMonths dateRange tolerance known).2,
    ∀ tx ∈ subK.Transactions, tx ∉ subP.Transactions := by
  intro subK hK subP hP tx htx htx'
  simp only [runDetection] at hK hP
  obtain ⟨hkne, g, hg, -, rfl⟩ := mem_DetectKnown.mp hK
  have htxc : tx ∈ consumedTxs transactions known := by
    have h1 : tx ∈ g.2 := by simpa [mkKnownSub, mem_sortByDate] using htx
    rw [(mem_knownGroups.mp hg).2] at h1
    exact List.mem_of_mem_filter h1
  have hmem2 : toLowerStr tx.Text ∈
      (DetectKnownSubscriptions transactions dateRange known).2 := by
    simp only [DetectKnownSubscriptions, if_neg hkne]
    exact List.mem_map.mpr ⟨tx, htxc, rfl⟩
  obtain ⟨key, -, hk2⟩ := mem_DetectSubscriptions.mp hP
  rw [(detectForKey_inv hk2).1] at htx'
  have htxp : tx ∈ FilterOutMatched transactions
      (DetectKnownSubscriptions transactions dateRange known).2 :=
    List.mem_of_mem_filter ((mem_FilterExpenses.mp (mem_sortByDate.mp htx')).1)
  have hmne : ¬ ((DetectKnownSubscriptions transactions dateRange known).2).isEmpty := by
    simp only [List.isEmpty_iff]
    exact List.ne_nil_of_mem hmem2
  rw [FilterOutMatched, if_neg hmne] at htxp
  have hnot := (List.mem_filter.mp htxp).2
  rw [decide_eq_true_eq] at hnot
  exact hnot hmem2

/-- Witness for C7 on a concrete pipeline run with one matched and one
unmatched payee. -/
theorem pipeline_disjoint_witness :
    (⟨⟨2025, 2, 10⟩, "NETFLIX", mkRat (-99) 1⟩ : Transaction) ∉
      (match (runDetection [⟨⟨2025, 2, 10⟩, "NETFLIX", mkRat (-99) 1⟩]
        [(2025, 2)] ⟨⟨2025, 2, 10⟩, ⟨2025, 2, 10⟩⟩ (mkRat 1 10) [c5rule]).2 with
       | [] => []
       | s :: _ => s.Transactions) := by
  have h := pipeline_disjoint [⟨⟨2025, 2, 10⟩, "NETFLIX", mkRat (-99) 1⟩]
    [(2025, 2)] ⟨⟨2025, 2, 10⟩, ⟨2025, 2, 10⟩⟩ (mkRat 1 10) [c5rule]
  revert h
  decide

/-! ### Display names -/

instance : IsTotal Transaction txDateLE where
  total a b := by
    by_cases h : dateLt b.Date a.Date
    · right
      intro h'
      exact absurd (dateLt_trans h h') (dateLt_irrefl _)
    · left
      exact h

instance : IsTrans Transaction txDateLE where
  trans a b c hab hbc := by
    intro hca
    rcases dateLt_trichotomy b.Date c.Date with h | h | h
    · exact hab (dateLt_trans h hca)
    · exact hab (h.symm ▸ hca)
    · exact hbc h

theorem sortByDate_sorted (l : List Transaction) :
    List.Sorted txDateLE (sortByDate l) :=
  List.sorted_insertionSort txDateLE l

/-- In a date-sorted list whose member `tx₀` strictly dominates every
other member's date, the last element is `tx₀`. -/
theorem getLast?_eq_unique_max :
    ∀ (l : List Transaction), List.Sorted txDateLE l →
      ∀ tx₀, tx₀ ∈ l → (∀ tx ∈ l, tx ≠ tx₀ → dateLt tx.Date tx₀.Date) →
      l.getLast? = some tx₀ := by
  intro l
  induction l with
  | nil => intro _ tx₀ h; cases h
  | cons a rest ih =>
    intro hs tx₀ hmem hmax
    cases rest with
    | nil =>
      rcases List.mem_singleton.mp hmem with rfl
      rfl
    | cons b rest' =>
      rw [List.getLast?_cons_cons]
      by_cases htl : tx₀ ∈ b :: rest'
      · exact ih hs.of_cons tx₀ htl
          (fun tx htx hne => hmax tx (List.mem_cons_of_mem a htx) hne)
      · exfalso
        have hb : b ≠ tx₀ := fun h => htl (h ▸ List.mem_cons_self b rest')
        have hlt : dateLt b.Date tx₀.Date :=
          hmax b (List.mem_cons_of_mem a (List.mem_cons_self b rest')) hb
        have ha : tx₀ = a := by
          rcases List.mem_cons.mp hmem with h | h
          · exact h
          · exact absurd h htl
        have hr : txDateLE a b := (List.sorted_cons.mp hs).1 b (List.mem_cons_self b rest')
        exact hr (ha ▸ hlt)

/-- The Go string of the C6 counterexample's maximum-date transaction. -/
def c6txs : List Transaction :=
  [⟨⟨2025, 2, 10⟩, "NETFLIX", mkRat (-99) 1⟩,
   ⟨⟨2025, 1, 10⟩, "netflix", mkRat (-99) 1⟩]

/-- Counterexample to C6: the group is detected, its unique maximum-date
transaction has text "NETFLIX", yet the subscription's name is "netflix"
(the most recently *seen* spelling, because the max-date transaction comes
first in the input order). -/
theorem detect_name_counterexample :
    (DetectSubscriptions c6txs c6txs ⟨⟨2025, 1, 10⟩, ⟨2025, 2, 10⟩⟩
        (mkRat 1 10)).map (fun s => s.Name) = ["netflix"] ∧
    (∃ sub ∈ DetectSubscriptions c6txs c6txs ⟨⟨2025, 1, 10⟩, ⟨2025, 2, 10⟩⟩
        (mkRat 1 10),
      (⟨⟨2025, 2, 10⟩, "NETFLIX", mkRat (-99) 1⟩ : Transaction) ∈ sub.Transactions ∧
      (∀ tx ∈ sub.Transactions,
        tx ≠ ⟨⟨2025, 2, 10⟩, "NETFLIX", mkRat (-99) 1⟩ →
        dateLt tx.Date ⟨2025, 2, 10⟩) ∧
      sub.Name ≠ "NETFLIX") := by
  decide

/-- C6 (amended): the Name of a known-pattern subscription is the text of
its unique maximum-date transaction, in any input order; the Name of a
pattern-detected subscription is the most recently seen spelling of its
case-insensitive key (`displayName`), which coincides with the unique
maximum-date transaction's text whenever the `allTxs` list is sorted
ascending by date. -/
theorem detect_name_spec :
    (∀ (allTxs : List Transaction) (dr : DateRange)
        (known : List KnownSubscription) (sub : Subscription)
        (tx₀ : Transaction),
      sub ∈ (DetectKnownSubscriptions allTxs dr known).1 →
      tx₀ ∈ sub.Transactions →
      (∀ tx ∈ sub.Transactions, tx ≠ tx₀ → dateLt tx.Date tx₀.Date) →
      sub.Name = tx₀.Text) ∧
    (∀ (f a : List Transaction) (dr : DateRange) (tol : ℚ)
        (sub : Subscription), sub ∈ DetectSubscriptions f a dr tol →
      ∃ key, (∀ tx ∈ sub.Transactions, toLowerStr tx.Text = key) ∧
        sub.Name = displayName f a key) ∧
    (∀ (f a : List Transaction) (key : String) (tx₀ : Transaction),
      tx₀ ∈ a → toLowerStr tx₀.Text = key →
      (∀ tx ∈ a, toLowerStr tx.Text = key → tx ≠ tx₀ → dateLt tx.Date tx₀.Date) →
      List.Sorted txDateLE a →
      displayName f a key = tx₀.Text) := by
  refine ⟨?_, ?_, ?_⟩
  · intro allTxs dr known sub tx₀ hsub htx hmax
    obtain ⟨-, g, -, -, rfl⟩ := mem_DetectKnown.mp hsub
    have hlast : (sortByDate g.2).getLast? = some tx₀ :=
      getLast?_eq_unique_max _ (sortByDate_sorted g.2) tx₀
        (by simpa [mkKnownSub] using htx)
        (by simpa [mkKnownSub] using hmax)
    simp [mkKnownSub, hlast]
  · intro f a dr tol sub hsub
    obtain ⟨key, -, hk⟩ := mem_DetectSubscriptions.mp hsub
    obtain ⟨hTr, hN⟩ := detectForKey_inv hk
    refine ⟨key, ?_, hN⟩
    intro tx htx
    rw [hTr] at htx
    have := (mem_FilterExpenses.mp (mem_sortByDate.mp htx)).1
    exact of_decide_eq_true (List.mem_filter.mp this).2
  · intro f a key tx₀ hmem hkey hmax hsorted
    have hmemf : tx₀ ∈ a.filter (fun tx => decide (toLowerStr tx.Text = key)) :=
      List.mem_filter.mpr ⟨hmem, decide_eq_true hkey⟩
    have hsf : List.Sorted txDateLE
        (a.filter (fun tx => decide (toLowerStr tx.Text = key))) :=
      hsorted.sublist (List.filter_sublist a)
    have hlast := getLast?_eq_unique_max _ hsf tx₀ hmemf
      (fun tx htx hne =>
        hmax tx (List.mem_of_mem_filter htx)
          (of_decide_eq_true (List.mem_filter.mp htx).2) hne)
    simp [displayName, hlast]

/-- Witness for the amended C6: with the same two transactions in
ascending date order, the display name is the maximum-date spelling. -/
theorem detect_name_spec_witness :
    displayName [⟨⟨2025, 1, 10⟩, "netflix", mkRat (-99) 1⟩,
        ⟨⟨2025, 2, 10⟩, "NETFLIX", mkRat (-99) 1⟩]
      [⟨⟨2025, 1, 10⟩, "netflix", mkRat (-99) 1⟩,
        ⟨⟨2025, 2, 10⟩, "NETFLIX", mkRat (-99) 1⟩] "netflix" = "NETFLIX" :=
  detect_name_spec.2.2 _ _ "netflix" ⟨⟨2025, 2, 10⟩, "NETFLIX", mkRat (-99) 1⟩
    (by decide) (by decide) (by decide) (by decide)

/-! ### Determinism of the suggestion engine (C9)

Go iterates the `byName` map in a randomised order; `SuggestGroupsWith`
takes that enumeration as the explicit `orphanNames` argument.  The claim
is that the produced suggestions — prefixes, patterns, name sets, month
counts, and their order — do not depend on it.  `SimilarSug` is the
invariant carried through the pipeline: two intermediate suggestions that
agree on everything except the internal order of `Names`/`Transactions`. -/

open List

def SimilarSug (s t : GroupSuggestion) : Prop :=
  s.Prefix = t.Prefix ∧ s.Pattern = t.Pattern ∧ s.Names ~ t.Names ∧
  s.Names.Nodup ∧ s.MonthCount = t.MonthCount ∧ s.Transactions ~ t.Transactions

instance : IsTotal String lenLex where
  total a b := by
    unfold lenLex
    rcases Nat.lt_trichotomy a.length b.length with h | h | h
    · exact Or.inl (Or.inl h)
    · rcases le_total a b with h2 | h2
      · exact Or.inl (Or.inr ⟨h, h2⟩)
      · exact Or.inr (Or.inr ⟨h.symm, h2⟩)
    · exact Or.inr (Or.inl h)

instance : IsTrans String lenLex where
  trans a b c hab hbc := by
    unfold lenLex at *
    rcases hab with h1 | ⟨h1, h1'⟩ <;> rcases hbc with h2 | ⟨h2, h2'⟩
    · exact Or.inl (h1.trans h2)
    · exact Or.inl (h2 ▸ h1)
    · exact Or.inl (h1 ▸ h2)
    · exact Or.inr ⟨h1.trans h2, h1'.trans h2'⟩

instance : IsAntisymm String lenLex where
  antisymm a b hab hba := by
    unfold lenLex at *
    rcases hab with h1 | ⟨h1, h1'⟩ <;> rcases hba with h2 | ⟨h2, h2'⟩ <;>
      first
        | omega
        | exact le_antisymm h1' h2'

theorem uniqueList_perm {α : Type} [DecidableEq α] {l l' : List α}
    (h : l ~ l') : uniqueList l ~ uniqueList l' :=
  (List.perm_ext_iff_of_nodup (nodup_uniqueList l) (nodup_uniqueList l')).mpr
    (fun a => by rw [mem_uniqueList, mem_uniqueList, h.mem_iff])

theorem insertionSort_lenLex_eq {l l' : List String} (h : l ~ l') :
    List.insertionSort lenLex l = List.insertionSort lenLex l' :=
  List.eq_of_perm_of_sorted
    ((List.perm_insertionSort lenLex l).trans
      (h.trans (List.perm_insertionSort lenLex l').symm))
    (List.sorted_insertionSort lenLex l) (List.sorted_insertionSort lenLex l')

theorem insertionSort_le_eq {l l' : List String} (h : l ~ l') :
    List.insertionSort (fun a b : String => a ≤ b) l =
      List.insertionSort (fun a b : String => a ≤ b) l' :=
  List.eq_of_perm_of_sorted
    ((List.perm_insertionSort _ l).trans
      (h.trans (List.perm_insertionSort _ l').symm))
    (List.sorted_insertionSort _ l) (List.sorted_insertionSort _ l')

theorem sortedKeyList_congr {ns ns' : List String} (h : ns ~ ns') :
    sortedKeyList ns = sortedKeyList ns' := by
  unfold sortedKeyList
  rw [insertionSort_lenLex_eq (uniqueList_perm (h.flatMap_right wordKeysOf)),
    insertionSort_lenLex_eq (uniqueList_perm (h.flatMap_right charKeysOf))]

theorem candidatesFor_perm {ns ns' : List String} (h : ns ~ ns') (p : String) :
    candidatesFor p ns ~ candidatesFor p ns' :=
  (h.filter _).append (h.filter _)

theorem isMonthlyPattern_perm {l l' : List Transaction} (h : l ~ l') :
    IsMonthlyPattern l = IsMonthlyPattern l' := by
  unfold IsMonthlyPattern
  rw [decide_eq_decide]
  have hm : l.map (fun tx : Transaction => monthKey tx.Date) ~
      l'.map (fun tx : Transaction => monthKey tx.Date) := h.map _
  unfold countKey
  constructor
  · intro hall k hk
    rw [← hm.countP_eq]
    exact hall k (hm.mem_iff.mpr hk)
  · intro hall k hk
    rw [hm.countP_eq]
    exact hall k (hm.mem_iff.mp hk)

theorem nodup_of_countKey_eq_one :
    ∀ {L : List (Int × Int)}, (∀ k ∈ L, countKey k L = 1) → L.Nodup := by
  intro L
  induction L with
  | nil => intro _; exact List.nodup_nil
  | cons x t ih =>
    intro hall
    have hx := hall x (List.mem_cons_self x t)
    rw [countKey, List.countP_cons] at hx
    rw [decide_eq_true rfl, if_pos rfl] at hx
    have hxt : countKey x t = 0 := by
      unfold countKey
      omega
    have hnx : x ∉ t := by
      intro hmem
      have := List.countP_eq_zero.mp hxt x hmem
      simp at this
    refine List.nodup_cons.mpr ⟨hnx, ih ?_⟩
    intro k hk
    have hk1 := hall k (List.mem_cons_of_mem x hk)
    rw [countKey, List.countP_cons] at hk1
    have hxk : ¬ (x = k) := fun h => hnx (h ▸ hk)
    rw [decide_eq_false hxk, if_neg Bool.false_ne_true] at hk1
    unfold countKey
    omega

theorem monthly_dates_nodup {l : List Transaction}
    (h : IsMonthlyPattern l = true) :
    (l.map (fun tx => tx.Date)).Nodup := by
  have hkeys : (l.map (fun tx : Transaction => monthKey tx.Date)).Nodup :=
    nodup_of_countKey_eq_one (of_decide_eq_true h)
  have hmm : l.map (fun tx : Transaction => monthKey tx.Date) =
      (l.map (fun tx => tx.Date)).map monthKey := by
    rw [List.map_map]
    rfl
  rw [hmm] at hkeys
  exact hkeys.of_map monthKey

/-- Sorted permutations with pairwise-distinct dates are equal. -/
theorem eq_of_perm_sorted_nodup_dates :
    ∀ {l l' : List Transaction}, l ~ l' → List.Sorted txDateLE l →
      List.Sorted txDateLE l' → (l.map (fun tx => tx.Date)).Nodup → l = l'
  | [], l', hp, _, _, _ => (hp.nil_eq).symm ▸ rfl
  | a :: t₁, l', hp, hs₁, hs₂, hnd => by
    cases l' with
    | nil => exact absurd hp.symm (by simp)
    | cons b t₂ =>
      have hab : a = b := by
        rcases List.mem_cons.mp (hp.mem_iff.mp (List.mem_cons_self a t₁)) with h | h
        · exact h
        · rcases List.mem_cons.mp (hp.symm.mem_iff.mp (List.mem_cons_self b t₂)) with h' | h'
          · exact h'.symm
          · exfalso
            have h1 : txDateLE b a := (List.sorted_cons.mp hs₂).1 a h
            have h2 : txDateLE a b := (List.sorted_cons.mp hs₁).1 b h'
            have hd : a.Date = b.Date := by
              rcases dateLt_trichotomy a.Date b.Date with hl | hl | hl
              · exact absurd hl h1
              · exact hl
              · exact absurd hl h2
            exact (List.nodup_cons.mp hnd).1
              (List.mem_map.mpr ⟨b, h', hd.symm⟩)
      subst hab
      rw [eq_of_perm_sorted_nodup_dates hp.cons_inv (List.sorted_cons.mp hs₁).2
        (List.sorted_cons.mp hs₂).2 (List.nodup_cons.mp hnd).2]

theorem sortByDate_eq_of_perm {l l' : List Transaction} (h : l ~ l')
    (hnd : (l.map (fun tx => tx.Date)).Nodup) :
    sortByDate l = sortByDate l' :=
  eq_of_perm_sorted_nodup_dates
    ((List.perm_insertionSort _ l).trans (h.trans (List.perm_insertionSort _ l').symm))
    (sortByDate_sorted l) (sortByDate_sorted l')
    (by
      have hp : (sortByDate l).map (fun tx => tx.Date) ~ l.map (fun tx => tx.Date) :=
        (List.perm_insertionSort txDateLE l).map (fun tx => tx.Date)
      exact hp.nodup_iff.mpr hnd)

theorem isLikely_congr {l l' : List Transaction} (h : l ~ l') (tol : ℚ) :
    isLikelySubscription l tol = isLikelySubscription l' tol := by
  unfold isLikelySubscription
  rw [h.length_eq]
  by_cases hlen : l'.length < 3
  · rw [if_pos hlen, if_pos hlen]
  · rw [if_neg hlen, if_neg hlen]
    have hm : IsMonthlyPattern (sortByDate l) = IsMonthlyPattern (sortByDate l') :=
      isMonthlyPattern_perm
        ((List.perm_insertionSort _ l).trans (h.trans (List.perm_insertionSort _ l').symm))
    by_cases hmp : IsMonthlyPattern (sortByDate l) = true
    · have hnd : (l.map (fun tx => tx.Date)).Nodup := by
        have hp : (sortByDate l).map (fun tx => tx.Date) ~ l.map (fun tx => tx.Date) :=
          (List.perm_insertionSort txDateLE l).map (fun tx => tx.Date)
        exact hp.nodup_iff.mp (monthly_dates_nodup hmp)
      rw [sortByDate_eq_of_perm h hnd]
    · rw [Bool.not_eq_true] at hmp
      rw [hmp, hm.symm.trans hmp]
      rfl

theorem forall2_filter {α : Type} {S : α → α → Prop} {p : α → Bool}
    (hp : ∀ a b, S a b → p a = p b) :
    ∀ {l l' : List α}, List.Forall₂ S l l' →
      List.Forall₂ S (l.filter p) (l'.filter p) := by
  intro l l' h
  induction h with
  | nil => exact List.Forall₂.nil
  | @cons a b l₁ l₂ hab htl ih =>
    simp only [List.filter_cons, hp a b hab]
    by_cases hb : p b = true
    · rw [if_pos hb, if_pos hb]
      exact List.Forall₂.cons hab ih
    · rw [if_neg hb, if_neg hb]
      exact ih

theorem forall2_orderedInsert {α : Type} {S : α → α → Prop}
    {r : α → α → Prop} [DecidableRel r]
    (hr : ∀ a a' b b', S a a' → S b b' → (r a b ↔ r a' b')) {a a' : α}
    (hS : S a a') :
    ∀ {l l' : List α}, List.Forall₂ S l l' →
      List.Forall₂ S (l.orderedInsert r a) (l'.orderedInsert r a') := by
  intro l l' h
  induction h with
  | nil => exact List.Forall₂.cons hS List.Forall₂.nil
  | @cons b b' l₁ l₂ hbc htl ih =>
    simp only [List.orderedInsert]
    by_cases hr1 : r a b
    · rw [if_pos hr1, if_pos ((hr a a' b b' hS hbc).mp hr1)]
      exact List.Forall₂.cons hS (List.Forall₂.cons hbc htl)
    · rw [if_neg hr1, if_neg (fun hc => hr1 ((hr a a' b b' hS hbc).mpr hc))]
      exact List.Forall₂.cons hbc ih

theorem forall2_insertionSort {α : Type} {S : α → α → Prop}
    {r : α → α → Prop} [DecidableRel r]
    (hr : ∀ a a' b b', S a a' → S b b' → (r a b ↔ r a' b')) :
    ∀ {l l' : List α}, List.Forall₂ S l l' →
      List.Forall₂ S (List.insertionSort r l) (List.insertionSort r l') := by
  intro l l' h
  induction h with
  | nil => exact List.Forall₂.nil
  | @cons a b l₁ l₂ hab htl ih =>
    simp only [List.insertionSort]
    exact forall2_orderedInsert hr hab ih

theorem greedyKeep_congr :
    ∀ {l l' : List GroupSuggestion}, List.Forall₂ SimilarSug l l' →
    ∀ {covered covered' : List String}, covered ~ covered' →
      List.Forall₂ SimilarSug (greedyKeep l covered) (greedyKeep l' covered') := by
  intro l l' h
  induction h with
  | nil => intro _ _ _; exact List.Forall₂.nil
  | @cons a b l₁ l₂ hab htl ih =>
    intro covered covered' hcov
    obtain ⟨hP, hPat, hNames, hNd, hMC, hTr⟩ := hab
    simp only [greedyKeep]
    have hflt : (a.Names.filter (fun n => decide (n ∉ covered))).length =
        (b.Names.filter (fun n => decide (n ∉ covered'))).length := by
      have h1 : a.Names.filter (fun n => decide (n ∉ covered)) ~
          b.Names.filter (fun n => decide (n ∉ covered)) := hNames.filter _
      have h2 : b.Names.filter (fun n => decide (n ∉ covered)) =
          b.Names.filter (fun n => decide (n ∉ covered')) :=
        List.filter_congr (fun x _ =>
          decide_eq_decide.mpr (by rw [hcov.mem_iff]))
      rw [h1.length_eq, h2]
    rw [hflt, hNames.length_eq]
    split_ifs with hc
    · exact List.Forall₂.cons ⟨hP, hPat, hNames, hNd, hMC, hTr⟩
        (ih (hcov.append hNames))
    · exact ih hcov

theorem dedup_congr {l l' : List GroupSuggestion}
    (h : List.Forall₂ SimilarSug l l') :
    List.Forall₂ SimilarSug (deduplicateSuggestions l)
      (deduplicateSuggestions l') := by
  unfold deduplicateSuggestions
  rw [h.length_eq]
  split_ifs with hlen
  · exact h
  · exact greedyKeep_congr
      (forall2_insertionSort
        (fun a a' b b' ha hb => by rw [ha.1, hb.1]) h)
      (List.Perm.refl [])

theorem buildGroups_congr {byName : String → List Transaction}
    {ns ns' : List String} (h : ns ~ ns') :
    ∀ (ps seen : List String),
      List.Forall₂ SimilarSug (buildGroups byName ns ps seen)
        (buildGroups byName ns' ps seen) := by
  intro ps
  induction ps with
  | nil => intro seen; exact List.Forall₂.nil
  | cons p rest ih =>
    intro seen
    have hcand : candidatesFor p ns ~ candidatesFor p ns' := candidatesFor_perm h p
    have hu : uniqueList (candidatesFor p ns) ~ uniqueList (candidatesFor p ns') :=
      uniqueList_perm hcand
    have hskey : String.intercalate "|"
        (List.insertionSort (fun a b : String => a ≤ b)
          (uniqueList (candidatesFor p ns))) =
        String.intercalate "|"
          (List.insertionSort (fun a b : String => a ≤ b)
            (uniqueList (candidatesFor p ns'))) :=
      congrArg _ (insertionSort_le_eq hu)
    have hT : (uniqueList (candidatesFor p ns)).flatMap byName ~
        (uniqueList (candidatesFor p ns')).flatMap byName :=
      hu.flatMap_right byName
    simp only [buildGroups]
    rw [hcand.length_eq, hu.length_eq, hskey]
    split_ifs with h1 h2 h3
    · exact ih seen
    · exact ih seen
    · exact ih seen
    · refine List.Forall₂.cons
        ⟨rfl, rfl, hu, nodup_uniqueList _, ?_, hT⟩ (ih _)
      exact (uniqueList_perm (hT.map (fun tx => monthKey tx.Date))).length_eq

/-- The data of a suggestion the claim compares between two runs: prefix,
generated pattern, the set of names (canonically sorted) and the month
count. -/
def sugSummary (s : GroupSuggestion) : String × String × List String × Nat :=
  (s.Prefix, s.Pattern,
    List.insertionSort (fun a b : String => a ≤ b) s.Names, s.MonthCount)

theorem forall2_map_sugSummary :
    ∀ {l l' : List GroupSuggestion}, List.Forall₂ SimilarSug l l' →
      l.map sugSummary = l'.map sugSummary := by
  intro l l' h
  induction h with
  | nil => rfl
  | @cons a b l₁ l₂ hab htl ih =>
    simp only [List.map_cons, ih]
    obtain ⟨hP, hPat, hNames, -, hMC, -⟩ := hab
    rw [show sugSummary a = sugSummary b from by
      unfold sugSummary
      rw [hP, hPat, hMC, insertionSort_le_eq hNames]]

/-- C9: the suggestion engine is deterministic — the sequence of
(prefix, pattern, name set, month count) it produces does not depend on
the order in which the randomised Go map iteration enumerates the orphan
names, so two runs on the same inputs agree. -/
theorem suggestGroups_deterministic (txs : List Transaction) (tol : ℚ)
    (ns ns' : List String) (h : ns ~ ns') :
    (SuggestGroupsWith txs tol ns).map sugSummary =
      (SuggestGroupsWith txs tol ns').map sugSummary := by
  unfold SuggestGroupsWith
  rw [sortedKeyList_congr h]
  have hraw := @buildGroups_congr (txsByNameOf txs) ns ns' h (sortedKeyList ns') []
  have hflt := forall2_filter
    (fun a b hS => isLikely_congr hS.2.2.2.2.2 tol) hraw
  have hsorted : List.Forall₂ SimilarSug
      (List.insertionSort (fun a b : GroupSuggestion => b.MonthCount ≤ a.MonthCount)
        (deduplicateSuggestions
          ((buildGroups (txsByNameOf txs) ns (sortedKeyList ns') []).filter
            (fun s => isLikelySubscription s.Transactions tol))))
      (List.insertionSort (fun a b : GroupSuggestion => b.MonthCount ≤ a.MonthCount)
        (deduplicateSuggestions
          ((buildGroups (txsByNameOf txs) ns' (sortedKeyList ns') []).filter
            (fun s => isLikelySubscription s.Transactions tol)))) :=
    forall2_insertionSort
      (fun a a' b b' ha hb => by rw [ha.2.2.2.2.1, hb.2.2.2.2.1])
      (dedup_congr hflt)
  exact forall2_map_sugSummary hsorted

/-- Witness for C9: two enumeration orders of the same two orphan names
give the same suggestion summaries. -/
theorem suggestGroups_deterministic_witness :
    (SuggestGroupsWith [⟨⟨2025, 1, 5⟩, "GYM A", mkRat (-100) 1⟩] (mkRat 1 10)
        ["GYM A", "GYM B"]).map sugSummary =
      (SuggestGroupsWith [⟨⟨2025, 1, 5⟩, "GYM A", mkRat (-100) 1⟩] (mkRat 1 10)
        ["GYM B", "GYM A"]).map sugSummary :=
  suggestGroups_deterministic _ _ _ _ (List.Perm.swap "GYM B" "GYM A" [])

end SubDetect
